import Mathlib

/-!
Verification of the reconciliation and aggregation core of the
social-media scorecard generator (files `app.py` and
`generate_scorecards.py`).  Python values are embedded shallowly:
strings as `String` or `List Char`, timestamps as a day number plus a
time-of-day, dictionaries as association lists in insertion order, and
`difflib` similarity scores as exact rationals.
-/

namespace Scorecards

/-! ## Character-level helpers for the record normalizer -/

/-- Python `str.split`/`str.strip` whitespace test, restricted to the
ASCII range.  `normalize` filters out every code point `≥ 128` first, so
only the ASCII whitespace characters (TAB..CR, FS..US, SPACE) matter. -/
def isPyWs (c : Char) : Bool :=
  decide (c.toNat = 32 ∨ (9 ≤ c.toNat ∧ c.toNat ≤ 13) ∨ (28 ≤ c.toNat ∧ c.toNat ≤ 31))

/-- Python `str.lower`, restricted to ASCII.  `normalize` applies it
after stripping all code points `≥ 128`, so the non-ASCII case mappings
of the real `str.lower` are unreachable there. -/
def pyLower (c : Char) : Char :=
  if 65 ≤ c.toNat ∧ c.toNat ≤ 90 then Char.ofNat (c.toNat + 32) else c

/-- Fuel-driven worker for `wordsOf`; the fuel is an upper bound on the
list length, so the recursion is structural and kernel-reducible. -/
def wordsOfF : ℕ → List Char → List (List Char)
  | 0, _ => []
  | _ + 1, [] => []
  | fuel + 1, c :: cs =>
    if isPyWs c then wordsOfF fuel cs
    else (c :: cs.takeWhile (fun d => !isPyWs d)) :: wordsOfF fuel (cs.dropWhile (fun d => !isPyWs d))

/-- The words of a string in the sense of Python `str.split()`: maximal
runs of non-whitespace characters. -/
def wordsOf (l : List Char) : List (List Char) :=
  wordsOfF l.length l

/-- Python `" ".join(ws)`. -/
def joinSp : List (List Char) → List Char
  | [] => []
  | w :: [] => w
  | w :: w2 :: ws => w ++ ' ' :: joinSp (w2 :: ws)

/-- Python `s.replace("&", "and")` at character-list level. -/
def replaceAmp (l : List Char) : List Char :=
  (l.map (fun c => if c = '&' then ['a', 'n', 'd'] else [c])).flatten

/-- The characters of code point below 128, i.e. Python
`"".join(c for c in name if ord(c) < 128)`. -/
def asciiFilter (l : List Char) : List Char :=
  l.filter (fun c => decide (c.toNat < 128))

/-- Python `str.strip()` (both-ends whitespace trim). -/
def pyStrip (l : List Char) : List Char :=
  (((l.dropWhile isPyWs).reverse.dropWhile isPyWs)).reverse

/-- The body of `normalize` on character lists: ASCII filter, `&` to
`and`, whitespace collapse via split and join, strip, lowercase. -/
def normChars (l : List Char) : List Char :=
  if l.isEmpty then []
  else (pyStrip (joinSp (wordsOf (replaceAmp (asciiFilter l))))).map pyLower

/-- `normalize` from `app.py` line 36 and `generate_scorecards.py`
line 43. -/
def normalize (s : String) : String :=
  String.mk (normChars s.data)

/-! ## Unfolding lemmas for `wordsOf` -/

theorem wordsOfF_congr : ∀ (fuel : ℕ) (l : List Char), l.length ≤ fuel →
    wordsOfF fuel l = wordsOfF l.length l := by
  intro fuel
  induction fuel using Nat.strong_induction_on with
  | _ fuel ih =>
    intro l h
    match fuel, l with
    | fuel, [] => cases fuel <;> rfl
    | 0, c :: cs => simp at h
    | n + 1, c :: cs =>
      have hcs : cs.length ≤ n := by
        simp only [List.length_cons] at h; omega
      have hdl : (cs.dropWhile (fun d => !isPyWs d)).length ≤ cs.length :=
        (List.dropWhile_sublist _).length_le
      show wordsOfF (n + 1) (c :: cs) = wordsOfF (cs.length + 1) (c :: cs)
      rw [wordsOfF, wordsOfF]
      rw [ih n (Nat.lt_succ_self n) cs hcs,
        ih n (Nat.lt_succ_self n) _ (le_trans hdl hcs),
        ih cs.length (Nat.lt_succ_of_le hcs) _ hdl]

theorem wordsOf_nil : wordsOf [] = [] := rfl

theorem wordsOf_cons (c : Char) (cs : List Char) :
    wordsOf (c :: cs) =
      if isPyWs c then wordsOf cs
      else (c :: cs.takeWhile (fun d => !isPyWs d)) ::
        wordsOf (cs.dropWhile (fun d => !isPyWs d)) := by
  show wordsOfF (cs.length + 1) (c :: cs) = _
  rw [wordsOfF]
  rw [wordsOfF_congr cs.length _ ((List.dropWhile_sublist _).length_le)]
  rfl

/-! ## Character-level lemmas -/

theorem toNat_charOfNat {n : ℕ} (h : n < 55296) : (Char.ofNat n).toNat = n := by
  have hv : n.isValidChar := Or.inl h
  simp only [Char.ofNat, hv, dif_pos]
  simp [Char.ofNatAux, Char.toNat, UInt32.toNat]

theorem toNat_pyLower_lt {c : Char} (h : c.toNat < 128) : (pyLower c).toNat < 128 := by
  unfold pyLower
  split
  · rw [toNat_charOfNat (by omega)]; omega
  · exact h

theorem pyLower_pyLower (c : Char) : pyLower (pyLower c) = pyLower c := by
  unfold pyLower
  split
  · rename_i h
    rw [toNat_charOfNat (by omega)]
    rw [if_neg (by omega)]
  · rfl

theorem isPyWs_pyLower (c : Char) : isPyWs (pyLower c) = isPyWs c := by
  unfold pyLower
  split
  · rename_i h
    unfold isPyWs
    rw [toNat_charOfNat (by omega), decide_eq_decide]
    omega
  · rfl

theorem pyLower_eq_amp {c : Char} (h : pyLower c = '&') : c = '&' := by
  unfold pyLower at h
  split at h
  · rename_i hc
    have h2 := congrArg Char.toNat h
    rw [toNat_charOfNat (by omega)] at h2
    have : c.toNat + 32 = 38 := h2
    omega
  · exact h

theorem pyLower_space : pyLower ' ' = ' ' := rfl

/-! ## Lemmas about `wordsOf`, `joinSp`, `pyStrip` -/

theorem wordsOf_forall_aux : ∀ (n : ℕ) (l : List Char), l.length ≤ n →
    ∀ w ∈ wordsOf l, w ≠ [] ∧ ∀ c ∈ w, isPyWs c = false := by
  intro n
  induction n with
  | zero =>
    intro l h w hw
    interval_cases hl : l.length
    rw [List.length_eq_zero.mp hl] at hw
    simp [wordsOf_nil] at hw
  | succ n ih =>
    intro l h w hw
    cases l with
    | nil => simp [wordsOf_nil] at hw
    | cons c cs =>
      have hcs : cs.length ≤ n := by
        simp only [List.length_cons] at h; omega
      rw [wordsOf_cons] at hw
      by_cases hc : isPyWs c
      · rw [if_pos hc] at hw
        exact ih cs hcs w hw
      · rw [if_neg hc] at hw
        rw [List.mem_cons] at hw
        rcases hw with hw | hw
        · subst hw
          refine ⟨by simp, ?_⟩
          intro d hd
          rw [List.mem_cons] at hd
          rcases hd with hd | hd
          · subst hd; simpa using hc
          · have := List.mem_takeWhile_imp hd
            simpa using this
        · exact ih _ (le_trans ((List.dropWhile_sublist _).length_le) hcs) w hw

theorem wordsOf_forall (l : List Char) :
    ∀ w ∈ wordsOf l, w ≠ [] ∧ ∀ c ∈ w, isPyWs c = false :=
  wordsOf_forall_aux l.length l le_rfl

theorem mem_wordsOf_aux : ∀ (n : ℕ) (l : List Char), l.length ≤ n →
    ∀ w ∈ wordsOf l, ∀ c ∈ w, c ∈ l := by
  intro n
  induction n with
  | zero =>
    intro l h w hw
    interval_cases hl : l.length
    rw [List.length_eq_zero.mp hl] at hw
    simp [wordsOf_nil] at hw
  | succ n ih =>
    intro l h w hw d hd
    cases l with
    | nil => simp [wordsOf_nil] at hw
    | cons c cs =>
      have hcs : cs.length ≤ n := by
        simp only [List.length_cons] at h; omega
      rw [wordsOf_cons] at hw
      by_cases hc : isPyWs c
      · rw [if_pos hc] at hw
        exact List.mem_cons_of_mem _ (ih cs hcs w hw d hd)
      · rw [if_neg hc] at hw
        rw [List.mem_cons] at hw
        rcases hw with hw | hw
        · subst hw
          rw [List.mem_cons] at hd
          rcases hd with hd | hd
          · subst hd; exact List.mem_cons_self _ _
          · exact List.mem_cons_of_mem _ ((List.takeWhile_prefix _).subset hd)
        · exact List.mem_cons_of_mem _
            ((List.dropWhile_suffix _).subset
              (ih _ (le_trans ((List.dropWhile_sublist _).length_le) hcs) w hw d hd))

theorem mem_wordsOf (l : List Char) :
    ∀ w ∈ wordsOf l, ∀ c ∈ w, c ∈ l :=
  mem_wordsOf_aux l.length l le_rfl

theorem takeWhile_append_all {p : Char → Bool} {w r : List Char}
    (h : ∀ c ∈ w, p c = true) : (w ++ r).takeWhile p = w ++ r.takeWhile p := by
  induction w with
  | nil => simp
  | cons a w ih =>
    have ha : p a = true := h a (List.mem_cons_self _ _)
    simp only [List.cons_append, List.takeWhile_cons, ha, if_true]
    rw [ih (fun c hc => h c (List.mem_cons_of_mem _ hc))]

theorem dropWhile_append_all {p : Char → Bool} {w r : List Char}
    (h : ∀ c ∈ w, p c = true) : (w ++ r).dropWhile p = r.dropWhile p := by
  induction w with
  | nil => simp
  | cons a w ih =>
    have ha : p a = true := h a (List.mem_cons_self _ _)
    simp only [List.cons_append, List.dropWhile_cons, ha, if_true]
    exact ih (fun c hc => h c (List.mem_cons_of_mem _ hc))

theorem wordsOf_joinSp (ws : List (List Char))
    (h : ∀ w ∈ ws, w ≠ [] ∧ ∀ c ∈ w, isPyWs c = false) :
    wordsOf (joinSp ws) = ws := by
  induction ws with
  | nil => simp [joinSp, wordsOf_nil]
  | cons w tail ih =>
    obtain ⟨hne, hnw⟩ := h w (List.mem_cons_self _ _)
    obtain ⟨c, w', rfl⟩ := List.exists_cons_of_ne_nil hne
    have hc : isPyWs c = false := hnw c (List.mem_cons_self _ _)
    have hw' : ∀ d ∈ w', (fun d => !isPyWs d) d = true := by
      intro d hd; simp [hnw d (List.mem_cons_of_mem _ hd)]
    cases tail with
    | nil =>
      show wordsOf (c :: w') = [c :: w']
      rw [wordsOf_cons, if_neg (by simp [hc])]
      have ht : w'.takeWhile (fun d => !isPyWs d) = w' := by
        have h2 := takeWhile_append_all (r := []) hw'
        simpa using h2
      have hd : w'.dropWhile (fun d => !isPyWs d) = [] := by
        have h2 := dropWhile_append_all (r := []) hw'
        simpa using h2
      rw [ht, hd]
      simp [wordsOf_nil]
    | cons w2 tail2 =>
      show wordsOf ((c :: w') ++ ' ' :: joinSp (w2 :: tail2)) = (c :: w') :: w2 :: tail2
      rw [List.cons_append, wordsOf_cons, if_neg (by simp [hc])]
      rw [takeWhile_append_all hw', dropWhile_append_all hw']
      have ht2 : (' ' :: joinSp (w2 :: tail2)).takeWhile (fun d => !isPyWs d) = [] := by
        rw [List.takeWhile_cons]; rfl
      have hd2 : (' ' :: joinSp (w2 :: tail2)).dropWhile (fun d => !isPyWs d) =
          ' ' :: joinSp (w2 :: tail2) := by
        rw [List.dropWhile_cons]; rfl
      rw [ht2, hd2, List.append_nil]
      have hsp : isPyWs ' ' = true := by decide
      rw [wordsOf_cons, if_pos hsp]
      rw [ih (fun v hv => h v (List.mem_cons_of_mem _ hv))]

theorem joinSp_concat (vs : List (List Char)) (v u : List Char) :
    joinSp (v :: (vs ++ [u])) = joinSp (v :: vs) ++ ' ' :: u := by
  induction vs generalizing v with
  | nil => simp [joinSp]
  | cons a vs ih =>
    show v ++ ' ' :: joinSp (a :: (vs ++ [u])) = (v ++ ' ' :: joinSp (a :: vs)) ++ ' ' :: u
    rw [ih a]
    simp

theorem reverse_joinSp (ws : List (List Char)) :
    (joinSp ws).reverse = joinSp ((ws.map List.reverse).reverse) := by
  induction ws with
  | nil => simp [joinSp]
  | cons w tail ih =>
    cases tail with
    | nil => simp [joinSp]
    | cons w2 t =>
      have hM : ((w2 :: t).map List.reverse).reverse ≠ [] := by simp
      obtain ⟨v, vs, hv⟩ := List.exists_cons_of_ne_nil hM
      show (w ++ ' ' :: joinSp (w2 :: t)).reverse = joinSp (((w :: w2 :: t).map List.reverse).reverse)
      have hR : ((w :: w2 :: t).map List.reverse).reverse = v :: (vs ++ [w.reverse]) := by
        rw [List.map_cons, List.reverse_cons, hv, List.cons_append]
      rw [hR, joinSp_concat, ← hv, ← ih]
      simp

theorem dropWhile_joinSp (ws : List (List Char))
    (h : ∀ w ∈ ws, w ≠ [] ∧ ∀ c ∈ w, isPyWs c = false) :
    (joinSp ws).dropWhile isPyWs = joinSp ws := by
  cases ws with
  | nil => simp [joinSp]
  | cons w tail =>
    obtain ⟨hne, hnw⟩ := h w (List.mem_cons_self _ _)
    obtain ⟨c, w', rfl⟩ := List.exists_cons_of_ne_nil hne
    have hc : ¬ (isPyWs c = true) := by
      simp [hnw c (List.mem_cons_self _ _)]
    cases tail with
    | nil =>
      show ((c :: w').dropWhile isPyWs) = c :: w'
      rw [List.dropWhile_cons_of_neg hc]
    | cons w2 t =>
      show ((c :: w') ++ ' ' :: joinSp (w2 :: t)).dropWhile isPyWs = _
      rw [List.cons_append, List.dropWhile_cons_of_neg hc]
      simp [joinSp]

theorem pyStrip_joinSp (ws : List (List Char))
    (h : ∀ w ∈ ws, w ≠ [] ∧ ∀ c ∈ w, isPyWs c = false) :
    pyStrip (joinSp ws) = joinSp ws := by
  unfold pyStrip
  rw [dropWhile_joinSp ws h, reverse_joinSp ws]
  have h' : ∀ w ∈ (ws.map List.reverse).reverse, w ≠ [] ∧ ∀ c ∈ w, isPyWs c = false := by
    intro w hw
    rw [List.mem_reverse, List.mem_map] at hw
    obtain ⟨v, hv, rfl⟩ := hw
    obtain ⟨hne, hnw⟩ := h v hv
    exact ⟨by simpa using hne, fun c hc => hnw c (List.mem_reverse.mp hc)⟩
  rw [dropWhile_joinSp _ h', ← reverse_joinSp ws, List.reverse_reverse]

theorem map_joinSp (ws : List (List Char)) :
    (joinSp ws).map pyLower = joinSp (ws.map (List.map pyLower)) := by
  induction ws with
  | nil => simp [joinSp]
  | cons w tail ih =>
    cases tail with
    | nil => simp [joinSp]
    | cons w2 t =>
      show (w ++ ' ' :: joinSp (w2 :: t)).map pyLower = _
      simp only [List.map_append, List.map_cons, pyLower_space, ih]
      rfl

/-! ## Membership chains used for idempotence -/

theorem mem_replaceAmp_asciiFilter {l : List Char} :
    ∀ c ∈ replaceAmp (asciiFilter l), c.toNat < 128 ∧ c ≠ '&' := by
  intro c hc
  unfold replaceAmp at hc
  rw [List.mem_flatten] at hc
  obtain ⟨piece, hp, hcp⟩ := hc
  rw [List.mem_map] at hp
  obtain ⟨d, hd, rfl⟩ := hp
  have hd' : d.toNat < 128 := by
    have := List.mem_filter.mp hd
    simpa using this.2
  by_cases hdq : d = '&'
  · rw [if_pos hdq] at hcp
    simp only [List.mem_cons, List.not_mem_nil, or_false] at hcp
    rcases hcp with rfl | rfl | rfl
    · exact ⟨by decide, by decide⟩
    · exact ⟨by decide, by decide⟩
    · exact ⟨by decide, by decide⟩
  · rw [if_neg hdq] at hcp
    simp only [List.mem_cons, List.not_mem_nil, or_false] at hcp
    subst hcp
    exact ⟨hd', hdq⟩

theorem mem_pyStrip {l : List Char} : ∀ c ∈ pyStrip l, c ∈ l := by
  intro c hc
  unfold pyStrip at hc
  rw [List.mem_reverse] at hc
  have h1 := (List.dropWhile_suffix (l := (l.dropWhile isPyWs).reverse) isPyWs).subset hc
  rw [List.mem_reverse] at h1
  exact (List.dropWhile_suffix isPyWs).subset h1

theorem mem_joinSp {ws : List (List Char)} :
    ∀ c ∈ joinSp ws, c = ' ' ∨ ∃ w ∈ ws, c ∈ w := by
  intro c hc
  induction ws with
  | nil => simp [joinSp] at hc
  | cons w tail ih =>
    cases tail with
    | nil =>
      right; exact ⟨w, List.mem_cons_self _ _, hc⟩
    | cons w2 t =>
      rw [show joinSp (w :: w2 :: t) = w ++ ' ' :: joinSp (w2 :: t) from rfl] at hc
      rw [List.mem_append] at hc
      rcases hc with hc | hc
      · right; exact ⟨w, List.mem_cons_self _ _, hc⟩
      · rw [List.mem_cons] at hc
        rcases hc with hc | hc
        · left; exact hc
        · rcases ih hc with hc' | ⟨v, hv, hcv⟩
          · left; exact hc'
          · right; exact ⟨v, List.mem_cons_of_mem _ hv, hcv⟩

/-- Every character of the pre-lowercase stage of `normChars` is ASCII
and is not an ampersand. -/
theorem chars_stage {l : List Char} :
    ∀ c ∈ pyStrip (joinSp (wordsOf (replaceAmp (asciiFilter l)))),
      c.toNat < 128 ∧ c ≠ '&' := by
  intro c hc
  have hc1 := mem_pyStrip _ hc
  rcases mem_joinSp _ hc1 with h | ⟨w, hw, hcw⟩
  · subst h; exact ⟨by decide, by decide⟩
  · exact mem_replaceAmp_asciiFilter _ (mem_wordsOf _ w hw c hcw)

theorem replaceAmp_eq_self {x : List Char} (h : ∀ c ∈ x, c ≠ '&') :
    replaceAmp x = x := by
  unfold replaceAmp
  induction x with
  | nil => simp
  | cons a x ih =>
    have ha : a ≠ '&' := h a (List.mem_cons_self _ _)
    simp only [List.map_cons, List.flatten_cons, if_neg ha]
    rw [ih (fun c hc => h c (List.mem_cons_of_mem _ hc))]
    simp

theorem asciiFilter_eq_self {x : List Char} (h : ∀ c ∈ x, c.toNat < 128) :
    asciiFilter x = x := by
  unfold asciiFilter
  rw [List.filter_eq_self]
  intro c hc
  simpa using h c hc

theorem map_eq_self {α : Type} {f : α → α} {x : List α} (h : ∀ c ∈ x, f c = c) :
    x.map f = x := by
  induction x with
  | nil => rfl
  | cons a x ih =>
    rw [List.map_cons, h a (List.mem_cons_self _ _),
      ih (fun c hc => h c (List.mem_cons_of_mem _ hc))]

/-! ## Claim C8: `normalize` is idempotent -/

theorem normChars_of_isEmpty {l : List Char} (h : l.isEmpty) : normChars l = [] := by
  unfold normChars
  rw [if_pos h]

theorem normChars_of_ne {l : List Char} (h : l.isEmpty = false) :
    normChars l = (pyStrip (joinSp (wordsOf (replaceAmp (asciiFilter l))))).map pyLower := by
  unfold normChars
  rw [if_neg (by simp [h])]

theorem normChars_idem (l : List Char) : normChars (normChars l) = normChars l := by
  by_cases hl : l.isEmpty
  · have h0 : normChars l = [] := normChars_of_isEmpty hl
    rw [h0]
    rfl
  rw [Bool.not_eq_true] at hl
  set ws := wordsOf (replaceAmp (asciiFilter l)) with hws
  have hWprops : ∀ w ∈ ws, w ≠ [] ∧ ∀ c ∈ w, isPyWs c = false := wordsOf_forall _
  have hy : normChars l = (pyStrip (joinSp ws)).map pyLower := normChars_of_ne hl
  set y := normChars l with hydef
  by_cases hyn : y.isEmpty
  · rw [normChars_of_isEmpty hyn]
    rw [List.isEmpty_iff] at hyn
    exact hyn.symm
  rw [Bool.not_eq_true] at hyn
  have hchar : ∀ c ∈ y, c.toNat < 128 ∧ c ≠ '&' := by
    intro c hc
    rw [hy, List.mem_map] at hc
    obtain ⟨d, hd, rfl⟩ := hc
    obtain ⟨hd1, hd2⟩ := chars_stage _ hd
    refine ⟨toNat_pyLower_lt hd1, ?_⟩
    intro hcon
    exact hd2 (pyLower_eq_amp hcon)
  set ws' := ws.map (List.map pyLower) with hws'
  have hyjoin : y = joinSp ws' := by
    rw [hy, pyStrip_joinSp ws hWprops, map_joinSp]
  have hW'props : ∀ w ∈ ws', w ≠ [] ∧ ∀ c ∈ w, isPyWs c = false := by
    intro w hw
    rw [hws', List.mem_map] at hw
    obtain ⟨v, hv, rfl⟩ := hw
    obtain ⟨hne, hnw⟩ := hWprops v hv
    constructor
    · simpa using hne
    · intro c hc
      rw [List.mem_map] at hc
      obtain ⟨d, hd, rfl⟩ := hc
      rw [isPyWs_pyLower]
      exact hnw d hd
  rw [normChars_of_ne hyn]
  rw [asciiFilter_eq_self (fun c hc => (hchar c hc).1),
    replaceAmp_eq_self (fun c hc => (hchar c hc).2)]
  rw [hyjoin, wordsOf_joinSp ws' hW'props, pyStrip_joinSp ws' hW'props]
  rw [← hyjoin]
  apply map_eq_self
  intro c hc
  rw [hy, List.mem_map] at hc
  obtain ⟨d, _, rfl⟩ := hc
  exact pyLower_pyLower d

/-- Claim C8: for every input string `n`, `normalize (normalize n)`
equals `normalize n` — normalization is idempotent. -/
theorem claim_c8_normalize_idempotent (s : String) :
    normalize (normalize s) = normalize s := by
  unfold normalize
  exact congrArg String.mk (normChars_idem s.data)

/-! ## Claim C4: normalize on "Café – Déjà Vu 🍕" -/

/-- Claim C4 counterexample: `normalize` applied to `"Café – Déjà Vu 🍕"`
does not return `"caf deja vu"`; non-ASCII code points are dropped, so
`"Déjà"` collapses to `"Dj"`, not `"Deja"`. -/
theorem claim_c4_counterexample : normalize "Café – Déjà Vu 🍕" ≠ "caf deja vu" := by
  decide

/-- Claim C4 (amended): `normalize "Café – Déjà Vu 🍕"` returns exactly
`"caf dj vu"` — every non-ASCII code point is removed outright (the
accented letters contribute nothing), whitespace is collapsed, and the
result is lowercased. -/
theorem claim_c4_amended : normalize "Café – Déjà Vu 🍕" = "caf dj vu" := by
  decide

/-! ## Timestamp model

A Python `datetime` is embedded as a day number (days since 1970-01-01
in the proleptic Gregorian calendar, which was a Thursday) together
with the microseconds elapsed since midnight.  The only datetime
operations the program uses are comparison, day arithmetic with
`timedelta(days=n)`, truncation to midnight, `.weekday()`, `.day`,
`.year` and `.strftime("%B")`. -/

structure PyDateTime where
  day : ℤ
  tod : ℕ
deriving DecidableEq

/-- Strict order on timestamps (lexicographic on day, time-of-day). -/
def dtLt (a b : PyDateTime) : Prop :=
  a.day < b.day ∨ (a.day = b.day ∧ a.tod < b.tod)

/-- Non-strict order on timestamps. -/
def dtLe (a b : PyDateTime) : Prop :=
  a.day < b.day ∨ (a.day = b.day ∧ a.tod ≤ b.tod)

instance (a b : PyDateTime) : Decidable (dtLt a b) := by
  unfold dtLt; infer_instance

instance (a b : PyDateTime) : Decidable (dtLe a b) := by
  unfold dtLe; infer_instance

/-- Python `datetime.weekday()`: Monday = 0 … Sunday = 6.  Day 0
(1970-01-01) was a Thursday, i.e. weekday 3. -/
def weekdayMon (d : ℤ) : ℤ := (d + 3) % 7

/-- `day_of_week_sunday_start` from `app.py` line 52 /
`generate_scorecards.py` line 61: 0 = Sunday … 6 = Saturday. -/
def day_of_week_sunday_start (dt : PyDateTime) : ℤ :=
  (weekdayMon dt.day + 1) % 7

/-- `get_week_sunday` from `app.py` line 56 / `generate_scorecards.py`
line 66: the Sunday midnight that starts the week containing `dt`. -/
def get_week_sunday (dt : PyDateTime) : PyDateTime :=
  ⟨dt.day - day_of_week_sunday_start dt, 0⟩

/-- Gregorian civil date `(year, month, day-of-month)` from a day
number, following the standard era-based algorithm; models the `.year`,
`.month` and `.day` attributes of Python `datetime`. -/
def civilFromDays (z : ℤ) : ℤ × ℕ × ℕ :=
  let z' := z + 719468
  let era := Int.fdiv z' 146097
  let doe := (z' - era * 146097).toNat
  let yoe := (doe - doe / 1460 + doe / 36524 - doe / 146096) / 365
  let y := (yoe : ℤ) + era * 400
  let doy := doe - (365 * yoe + yoe / 4 - yoe / 100)
  let mp := (5 * doy + 2) / 153
  let dom := doy - (153 * mp + 2) / 5 + 1
  let m := if mp < 10 then mp + 3 else mp - 9
  (if m ≤ 2 then y + 1 else y, m, dom)

def civilYear (d : ℤ) : ℤ := (civilFromDays d).1

def civilMonth (d : ℤ) : ℕ := (civilFromDays d).2.1

def civilDom (d : ℤ) : ℕ := (civilFromDays d).2.2

/-- English month names as produced by `strftime("%B")` in the C
locale. -/
def monthNames : List String :=
  ["January", "February", "March", "April", "May", "June", "July",
   "August", "September", "October", "November", "December"]

def monthName (d : ℤ) : String := monthNames.getD (civilMonth d - 1) ""

/-- One ingested order: display name, parsed timestamp, normalized
key.  The ingestor sets `norm = normalize place`. -/
structure Order where
  place : String
  date : PyDateTime
  norm : String
deriving DecidableEq

/-- One step of the `defaultdict(int)` counting loop of
`determine_week`: increment the count of key `k`, inserting it at the
end on first occurrence (Python dict insertion order). -/
def bumpWeek (m : List (PyDateTime × ℕ)) (k : PyDateTime) : List (PyDateTime × ℕ) :=
  match m with
  | [] => [(k, 1)]
  | (k', c) :: rest => if k' = k then (k', c + 1) :: rest else (k', c) :: bumpWeek rest k

/-- Python `max(keys, key=get)` over the remaining entries: keeps the
current best and replaces it only on a strictly greater count, so the
first key with the maximal count wins. -/
def firstMaxGo : PyDateTime → ℕ → List (PyDateTime × ℕ) → PyDateTime
  | best, _, [] => best
  | best, bc, (k, c) :: rest =>
    if bc < c then firstMaxGo k c rest else firstMaxGo best bc rest

/-- `determine_week` from `app.py` line 197 / `generate_scorecards.py`
line 176.  The ambient clock read by `datetime.now()` in the
empty-orders branch is passed explicitly as `now`.  The inner `match`
default for an empty count table is unreachable for non-empty input. -/
def determine_week (orders : List Order) (now : PyDateTime) :
    PyDateTime × String × ℤ × ℕ :=
  match orders with
  | [] =>
    let ws := get_week_sunday now
    (ws, monthName now.day, civilYear now.day, (civilDom ws.day - 1) / 7 + 1)
  | _ :: _ =>
    let wc := orders.foldl (fun m o => bumpWeek m (get_week_sunday o.date)) []
    let ws := match wc with
      | [] => ⟨0, 0⟩
      | (k, c) :: rest => firstMaxGo k c rest
    (ws, monthName ws.day, civilYear ws.day, (civilDom ws.day - 1) / 7 + 1)

/-! ## Claim C5: determine_week on a single-week order list -/

theorem get_week_sunday_of_week {sd : ℤ} {o : PyDateTime}
    (hsun : (sd + 4) % 7 = 0) (h1 : dtLe ⟨sd, 0⟩ o) (h2 : dtLt o ⟨sd + 7, 0⟩) :
    get_week_sunday o = ⟨sd, 0⟩ := by
  unfold dtLe at h1
  unfold dtLt at h2
  simp only at h1 h2
  have hlo : sd ≤ o.day := by rcases h1 with h | ⟨h, _⟩ <;> omega
  have hhi : o.day ≤ sd + 6 := by rcases h2 with h | ⟨h, h'⟩ <;> omega
  unfold get_week_sunday day_of_week_sunday_start weekdayMon
  congr 1
  omega

theorem bumpWeek_single (S : PyDateTime) (n : ℕ) :
    bumpWeek [(S, n)] S = [(S, n + 1)] := by
  unfold bumpWeek
  rw [if_pos rfl]

theorem fold_bump_single (os : List Order) (S : PyDateTime) :
    ∀ n : ℕ, (∀ o ∈ os, get_week_sunday o.date = S) →
      os.foldl (fun m o => bumpWeek m (get_week_sunday o.date)) [(S, n)] =
        [(S, n + os.length)] := by
  induction os with
  | nil => intro n _; simp
  | cons o os ih =>
    intro n h
    have ho : get_week_sunday o.date = S := h o (List.mem_cons_self _ _)
    rw [List.foldl_cons, ho, bumpWeek_single]
    rw [ih (n + 1) (fun v hv => h v (List.mem_cons_of_mem _ hv))]
    have hlen : n + 1 + os.length = n + (os.length + 1) := by omega
    rw [List.length_cons, hlen]

/-- Claim C5: for every non-empty list of orders whose timestamps all
lie within one Sunday-to-Saturday span `[sd, sd+7)`, `determine_week`
returns that span's Sunday at midnight as the week start — regardless
of the order of the timestamps — with month name and year taken from
that Sunday and week-of-month equal to `(day_of_month - 1) / 7 + 1`. -/
theorem claim_c5_determine_week (orders : List Order) (now : PyDateTime) (sd : ℤ)
    (hne : orders ≠ [])
    (hsun : (sd + 4) % 7 = 0)
    (hin : ∀ o ∈ orders, dtLe ⟨sd, 0⟩ o.date ∧ dtLt o.date ⟨sd + 7, 0⟩) :
    determine_week orders now =
      (⟨sd, 0⟩, monthName sd, civilYear sd, (civilDom sd - 1) / 7 + 1) := by
  obtain ⟨o, os, rfl⟩ := List.exists_cons_of_ne_nil hne
  have hall : ∀ v ∈ o :: os, get_week_sunday v.date = ⟨sd, 0⟩ := by
    intro v hv
    exact get_week_sunday_of_week hsun (hin v hv).1 (hin v hv).2
  show (let wc := (o :: os).foldl (fun m v => bumpWeek m (get_week_sunday v.date)) []
        let ws := match wc with
          | [] => (⟨0, 0⟩ : PyDateTime)
          | (k, c) :: rest => firstMaxGo k c rest
        (ws, monthName ws.day, civilYear ws.day, (civilDom ws.day - 1) / 7 + 1)) = _
  have hfold : (o :: os).foldl (fun m v => bumpWeek m (get_week_sunday v.date)) [] =
      [(⟨sd, 0⟩, 1 + os.length)] := by
    rw [List.foldl_cons, hall o (List.mem_cons_self _ _)]
    show os.foldl _ [((⟨sd, 0⟩ : PyDateTime), 1)] = _
    exact fold_bump_single os _ 1 (fun v hv => hall v (List.mem_cons_of_mem _ hv))
  simp only [hfold]
  rfl

/-- Claim C5 witness: a single order on Monday 2026-02-16 (day number
20500); the enclosing week starts on Sunday 2026-02-15 (day 20499),
which is in February 2026, week-of-month 3. -/
theorem claim_c5_witness :
    determine_week [⟨"X", ⟨20500, 0⟩, "x"⟩] ⟨0, 0⟩ =
      (⟨20499, 0⟩, monthName 20499, civilYear 20499, (civilDom 20499 - 1) / 7 + 1) :=
  claim_c5_determine_week [⟨"X", ⟨20500, 0⟩, "x"⟩] ⟨0, 0⟩ 20499
    (by decide) (by decide) (by decide)

/-! ## Claim C9: purity of the core functions -/

/-- Claim C9 counterexample: `determine_week` on an empty orders list
is not pure in its program inputs — it additionally reads the ambient
clock, so two runs with identical (empty) inputs at different times
disagree. -/
theorem claim_c9_counterexample :
    ¬ (∀ n₁ n₂ : PyDateTime, determine_week [] n₁ = determine_week [] n₂) := by
  intro h
  have := h ⟨3, 0⟩ ⟨10, 0⟩
  simp [determine_week, get_week_sunday, day_of_week_sunday_start, weekdayMon] at this

/-- Claim C9 (amended): all core functions are deterministic in their
inputs, and `determine_week` is independent of the ambient clock
whenever the orders list is non-empty; only the empty-orders fallback
reads the current time. -/
theorem claim_c9_amended (orders : List Order) (n₁ n₂ : PyDateTime)
    (h : orders ≠ []) :
    determine_week orders n₁ = determine_week orders n₂ := by
  cases orders with
  | nil => exact absurd rfl h
  | cons o os => rfl

/-- Claim C9 amended witness at a concrete non-empty input. -/
theorem claim_c9_amended_witness :
    determine_week [⟨"X", ⟨20500, 0⟩, "x"⟩] ⟨0, 0⟩ =
      determine_week [⟨"X", ⟨20500, 0⟩, "x"⟩] ⟨12345, 678⟩ :=
  claim_c9_amended [⟨"X", ⟨20500, 0⟩, "x"⟩] ⟨0, 0⟩ ⟨12345, 678⟩ (by decide)

/-! ## Association lists for Python dicts -/

/-- Python `dict.get`: first (and, for a real dict, only) binding of a
key. -/
def lookupA {β : Type} : List (String × β) → String → Option β
  | [], _ => none
  | (k, v) :: rest, x => if k = x then some v else lookupA rest x

/-- Python `dict.__setitem__`: replace the value in place if the key is
bound, else append the new binding (insertion order). -/
def updateA {β : Type} : List (String × β) → String → β → List (String × β)
  | [], k, v => [(k, v)]
  | (k', v') :: rest, k, v =>
    if k' = k then (k', v) :: rest else (k', v') :: updateA rest k v

theorem lookupA_updateA {β : Type} (m : List (String × β)) (k x : String) (v : β) :
    lookupA (updateA m k v) x = if k = x then some v else lookupA m x := by
  induction m with
  | nil =>
    simp only [updateA, lookupA]
  | cons p rest ih =>
    obtain ⟨k', v'⟩ := p
    simp only [updateA]
    by_cases h1 : k' = k
    · rw [if_pos h1]
      subst h1
      simp only [lookupA]
      by_cases h2 : k' = x
      · rw [if_pos h2, if_pos h2]
      · rw [if_neg h2, if_neg h2, if_neg h2]
    · rw [if_neg h1]
      simp only [lookupA, ih]
      by_cases h2 : k' = x
      · have h3 : ¬ k = x := fun hc => h1 (h2.trans hc.symm)
        rw [if_pos h2, if_neg h3, if_pos h2]
      · rw [if_neg h2, if_neg h2]

theorem lookupA_eq_none_of_not_mem {β : Type} {m : List (String × β)} {x : String}
    (h : x ∉ m.map Prod.fst) : lookupA m x = none := by
  induction m with
  | nil => rfl
  | cons p rest ih =>
    obtain ⟨k, v⟩ := p
    simp only [List.map_cons, List.mem_cons] at h
    push_neg at h
    unfold lookupA
    rw [if_neg (fun hc => h.1 hc.symm)]
    exact ih h.2

/-! ## The day aggregator -/

/-- Day-of-week of a timestamp as a natural number, 0 = Sunday … 6 =
Saturday. -/
def dowNat (dt : PyDateTime) : ℕ := (day_of_week_sunday_start dt).toNat

theorem dowNat_lt (dt : PyDateTime) : dowNat dt < 7 := by
  unfold dowNat day_of_week_sunday_start weekdayMon
  omega

/-- The `[0] * 7` default row. -/
def zeros7 : List ℕ := [0, 0, 0, 0, 0, 0, 0]

/-- `counts[name][dow] += 1` on one stored row. -/
def bumpDay (v : List ℕ) (d : ℕ) : List ℕ := v.set d (v.getD d 0 + 1)

/-- One iteration of the loop in `count_orders_by_day` (`app.py`
line 188, `generate_scorecards.py` line 164): skip orders outside
`[week_start, week_start + 7 days)`, look the normalized key up in the
name map, and count only when the mapped value is truthy (present and
non-empty). -/
def stepCount (week_start : PyDateTime) (nm : List (String × String))
    (m : List (String × List ℕ)) (o : Order) : List (String × List ℕ) :=
  if dtLt o.date week_start ∨ dtLe ⟨week_start.day + 7, week_start.tod⟩ o.date then m
  else
    match lookupA nm o.norm with
    | none => m
    | some sc =>
      if sc = "" then m
      else updateA m sc (bumpDay ((lookupA m sc).getD zeros7) (dowNat o.date))

/-- `count_orders_by_day` from `app.py` line 183 /
`generate_scorecards.py` line 159.  The `defaultdict(lambda: [0]*7)` is
modelled as an association list in insertion order. -/
def count_orders_by_day (orders : List Order) (nm : List (String × String))
    (week_start : PyDateTime) : List (String × List ℕ) :=
  orders.foldl (stepCount week_start nm) []

/-- `daily_counts.get(name, [0]*7)` — the zero-filled row access used
by the report assembler. -/
def countsGet (m : List (String × List ℕ)) (k : String) : List ℕ :=
  (lookupA m k).getD zeros7

/-- The predicate deciding whether one order is counted into bucket
`(k, d)`: in the half-open week window, mapped to `k` by the name map,
with `k` truthy, on day-of-week `d`. -/
def countedInto (nm : List (String × String)) (ws : PyDateTime) (k : String) (d : ℕ)
    (o : Order) : Prop :=
  ¬ dtLt o.date ws ∧ ¬ dtLe ⟨ws.day + 7, ws.tod⟩ o.date ∧
    lookupA nm o.norm = some k ∧ k ≠ "" ∧ dowNat o.date = d

instance (nm : List (String × String)) (ws : PyDateTime) (k : String) (d : ℕ)
    (o : Order) : Decidable (countedInto nm ws k d o) := by
  unfold countedInto; infer_instance

theorem getD_bumpDay {v : List ℕ} {i d : ℕ} (hi : i < v.length) :
    (bumpDay v i).getD d 0 = v.getD d 0 + (if i = d then 1 else 0) := by
  unfold bumpDay
  by_cases h : i = d
  · subst h
    rw [if_pos rfl]
    rw [List.getD_eq_getElem?_getD, List.getElem?_set_self hi]
    rw [List.getD_eq_getElem?_getD]
    rw [List.getElem?_eq_getElem hi]
    simp
  · rw [if_neg h]
    rw [List.getD_eq_getElem?_getD, List.getElem?_set_ne h, ← List.getD_eq_getElem?_getD]
    omega

theorem length_bumpDay (v : List ℕ) (d : ℕ) : (bumpDay v d).length = v.length := by
  unfold bumpDay
  exact List.length_set v d _

theorem mem_updateA_values {β : Type} {m : List (String × β)} {k : String} {v : β}
    {p : String × β} (hp : p ∈ updateA m k v) : p ∈ m ∨ p.2 = v := by
  induction m with
  | nil =>
    unfold updateA at hp
    rw [List.mem_singleton] at hp
    right; rw [hp]
  | cons q rest ih =>
    obtain ⟨k', v'⟩ := q
    unfold updateA at hp
    split at hp
    · rw [List.mem_cons] at hp
      rcases hp with hp | hp
      · right; rw [hp]
      · left; exact List.mem_cons_of_mem _ hp
    · rw [List.mem_cons] at hp
      rcases hp with hp | hp
      · left; rw [hp]; exact List.mem_cons_self _ _
      · rcases ih hp with h | h
        · left; exact List.mem_cons_of_mem _ h
        · right; exact h

theorem lookupA_mem {β : Type} {m : List (String × β)} {x : String} {w : β}
    (h : lookupA m x = some w) : (x, w) ∈ m := by
  induction m with
  | nil => exact absurd h (by simp [lookupA])
  | cons p rest ih =>
    obtain ⟨k, v⟩ := p
    unfold lookupA at h
    split at h
    · rename_i hk
      injection h with h
      subst hk
      subst h
      exact List.mem_cons_self _ _
    · exact List.mem_cons_of_mem _ (ih h)

theorem countsGet_length {m : List (String × List ℕ)} {k : String}
    (h : ∀ p ∈ m, p.2.length = 7) : (countsGet m k).length = 7 := by
  unfold countsGet
  rcases hx : lookupA m k with _ | w
  · rfl
  · exact h (k, w) (lookupA_mem hx)

theorem counts_length_invariant (orders : List Order) (nm : List (String × String))
    (ws : PyDateTime) :
    ∀ acc : List (String × List ℕ), (∀ p ∈ acc, p.2.length = 7) →
      ∀ p ∈ orders.foldl (stepCount ws nm) acc, p.2.length = 7 := by
  induction orders with
  | nil => intro acc h p hp; exact h p hp
  | cons o os ih =>
    intro acc h p hp
    rw [List.foldl_cons] at hp
    refine ih (stepCount ws nm acc o) ?_ p hp
    intro q hq
    unfold stepCount at hq
    split at hq
    · exact h q hq
    · split at hq
      · exact h q hq
      · split at hq
        · exact h q hq
        · rcases mem_updateA_values hq with hm | hv
          · exact h q hm
          · rw [hv, length_bumpDay]
            exact countsGet_length h

theorem getD_zeros7 (d : ℕ) : zeros7.getD d 0 = 0 := by
  unfold zeros7
  rcases d with _ | _ | _ | _ | _ | _ | _ | d <;> simp [List.getD]

theorem count_aux (ws : PyDateTime) (nm : List (String × String)) (k : String) (d : ℕ) :
    ∀ (orders : List Order) (acc : List (String × List ℕ)),
      (∀ p ∈ acc, p.2.length = 7) →
      (countsGet (orders.foldl (stepCount ws nm) acc) k).getD d 0 =
        (countsGet acc k).getD d 0 +
          (orders.filter (fun o => decide (countedInto nm ws k d o))).length := by
  intro orders
  induction orders with
  | nil => intro acc _; simp
  | cons o os ih =>
    intro acc hacc
    rw [List.foldl_cons, List.filter_cons]
    by_cases h1 : dtLt o.date ws ∨ dtLe ⟨ws.day + 7, ws.tod⟩ o.date
    · have hstep : stepCount ws nm acc o = acc := by
        unfold stepCount; rw [if_pos h1]
      have hpred : decide (countedInto nm ws k d o) = false := by
        simp only [decide_eq_false_iff_not]
        unfold countedInto
        tauto
      rw [hstep, hpred, ih acc hacc]
      simp
    · have h1' := h1
      push_neg at h1'
      cases hlk : lookupA nm o.norm with
      | none =>
        have hstep : stepCount ws nm acc o = acc := by
          unfold stepCount; rw [if_neg h1, hlk]
        have hpred : decide (countedInto nm ws k d o) = false := by
          simp only [decide_eq_false_iff_not]
          unfold countedInto
          rw [hlk]
          simp
        rw [hstep, hpred, ih acc hacc]
        simp
      | some sc =>
        by_cases hsc : sc = ""
        · have hstep : stepCount ws nm acc o = acc := by
            unfold stepCount
            rw [if_neg h1, hlk]
            exact if_pos hsc
          have hpred : decide (countedInto nm ws k d o) = false := by
            simp only [decide_eq_false_iff_not]
            unfold countedInto
            rw [hlk]
            intro hcon
            obtain ⟨_, _, hk, hkne, _⟩ := hcon
            injection hk with hk
            exact hkne (by rw [← hk, hsc])
          rw [hstep, hpred, ih acc hacc]
          simp
        · have hstep : stepCount ws nm acc o =
              updateA acc sc (bumpDay (countsGet acc sc) (dowNat o.date)) := by
            unfold stepCount
            rw [if_neg h1, hlk]
            exact if_neg hsc
          have hacc' : ∀ p ∈ updateA acc sc (bumpDay (countsGet acc sc) (dowNat o.date)),
              p.2.length = 7 := by
            intro p hp
            rcases mem_updateA_values hp with hm | hv
            · exact hacc p hm
            · rw [hv, length_bumpDay]
              exact countsGet_length hacc
          rw [hstep, ih _ hacc']
          have hget : countsGet (updateA acc sc (bumpDay (countsGet acc sc) (dowNat o.date))) k =
              if sc = k then bumpDay (countsGet acc sc) (dowNat o.date) else countsGet acc k := by
            unfold countsGet
            rw [lookupA_updateA]
            by_cases h2 : sc = k
            · rw [if_pos h2, if_pos h2]; rfl
            · rw [if_neg h2, if_neg h2]
          rw [hget]
          by_cases h2 : sc = k
          · subst h2
            rw [if_pos rfl]
            rw [getD_bumpDay (by rw [countsGet_length hacc]; exact dowNat_lt o.date)]
            by_cases h3 : dowNat o.date = d
            · have hcond : decide (countedInto nm ws sc d o) = true := by
                rw [decide_eq_true_eq]
                exact ⟨h1'.1, h1'.2, hlk, hsc, h3⟩
              rw [hcond, if_pos rfl, if_pos h3, List.length_cons]
              omega
            · have hcond : decide (countedInto nm ws sc d o) = false := by
                simp only [decide_eq_false_iff_not]
                intro hcon
                exact h3 hcon.2.2.2.2
              rw [hcond, if_neg h3]
              simp
          · rw [if_neg h2]
            have hpred : decide (countedInto nm ws k d o) = false := by
              simp only [decide_eq_false_iff_not]
              unfold countedInto
              rw [hlk]
              intro hcon
              obtain ⟨_, _, hk, _, _⟩ := hcon
              injection hk with hk
              exact h2 hk
            rw [hpred]
            simp

/-- Claim C6 (amended): for every orders list, name map and week
start, the count stored for restaurant `k` on day `d` is exactly the
number of orders that fall inside `[week_start, week_start + 7 days)`,
whose normalized key is mapped to `k` by the name map with `k`
non-empty ("truthy"), and whose Sunday-start day-of-week is `d`.  In
particular out-of-window orders and unmapped keys contribute nothing.
The claim as frozen omits the non-emptiness condition on the mapped
value, which the counterexample shows is needed. -/
theorem claim_c6_amended (orders : List Order) (nm : List (String × String))
    (ws : PyDateTime) (k : String) (d : ℕ) :
    (countsGet (count_orders_by_day orders nm ws) k).getD d 0 =
      (orders.filter (fun o => decide (countedInto nm ws k d o))).length := by
  unfold count_orders_by_day
  rw [count_aux ws nm k d orders [] (by intro p hp; exact absurd hp (List.not_mem_nil p))]
  have h0 : (countsGet [] k).getD d 0 = 0 := by
    unfold countsGet lookupA
    exact getD_zeros7 d
  rw [h0]
  omega

/-- Claim C6 counterexample: an order whose normalized key is mapped by
the name map to the empty string is present in the map and inside the
window, yet `count_orders_by_day` does not count it — the stored count
is `0` while the claim ("every remaining order increments the mapped
restaurant's count by 1") demands `1`. -/
theorem claim_c6_counterexample :
    ¬ ((countsGet (count_orders_by_day [⟨"🍕", ⟨20500, 0⟩, ""⟩] [("", "")] ⟨20499, 0⟩) "").getD 1 0 =
      ([(⟨"🍕", ⟨20500, 0⟩, ""⟩ : Order)].filter (fun o =>
        decide (¬ dtLt o.date ⟨20499, 0⟩ ∧ ¬ dtLe ⟨20506, 0⟩ o.date ∧
          lookupA [("", "")] o.norm = some "" ∧ dowNat o.date = 1))).length) := by
  decide

/-! ## Claim C10: empty-string map targets behave as unmatched -/

theorem lookupA_filter_truthy {nm : List (String × String)} (x : String)
    (h : (nm.map Prod.fst).Nodup) :
    lookupA (nm.filter (fun p => !(p.2 == ""))) x =
      if lookupA nm x = some "" then none else lookupA nm x := by
  induction nm with
  | nil => simp [lookupA]
  | cons p rest ih =>
    obtain ⟨k, v⟩ := p
    simp only [List.map_cons, List.nodup_cons] at h
    obtain ⟨hk, hnd⟩ := h
    rw [List.filter_cons]
    by_cases hv : v = ""
    · subst hv
      rw [if_neg (by simp), ih hnd]
      by_cases hkx : k = x
      · have hrest : lookupA rest x = none := by
          apply lookupA_eq_none_of_not_mem
          rw [← hkx]
          exact hk
        have hnm : lookupA ((k, "") :: rest) x = some "" := by
          show (if k = x then some "" else lookupA rest x) = some ""
          rw [if_pos hkx]
        rw [hnm, if_pos rfl, hrest]
        rw [if_neg (by simp)]
      · have hnm : lookupA ((k, "") :: rest) x = lookupA rest x := by
          show (if k = x then some "" else lookupA rest x) = lookupA rest x
          rw [if_neg hkx]
        rw [hnm]
    · rw [if_pos (by simp [hv])]
      by_cases hkx : k = x
      · unfold lookupA
        rw [if_pos hkx, if_pos hkx]
        rw [if_neg (by simp [hv])]
      · unfold lookupA
        rw [if_neg hkx, if_neg hkx, ih hnd]

/-- Claim C10: an order whose normalized key is mapped to the empty
string is never counted even though the mapping entry exists — the
aggregator tests the mapped value for truthiness, so deleting every
empty-valued entry from the (duplicate-free) name map leaves
`count_orders_by_day` unchanged. -/
theorem claim_c10_empty_target_as_unmatched (orders : List Order)
    (nm : List (String × String)) (ws : PyDateTime)
    (h : (nm.map Prod.fst).Nodup) :
    count_orders_by_day orders nm ws =
      count_orders_by_day orders (nm.filter (fun p => !(p.2 == ""))) ws := by
  unfold count_orders_by_day
  have hstep : stepCount ws (nm.filter (fun p => !(p.2 == ""))) = stepCount ws nm := by
    funext m o
    unfold stepCount
    by_cases hw : dtLt o.date ws ∨ dtLe ⟨ws.day + 7, ws.tod⟩ o.date
    · rw [if_pos hw, if_pos hw]
    · rw [if_neg hw, if_neg hw]
      have hft := lookupA_filter_truthy o.norm h
      cases hlk : lookupA nm o.norm with
      | none =>
        rw [hlk, if_neg (by simp)] at hft
        rw [hft]
      | some sc =>
        rw [hlk] at hft
        by_cases hsc : sc = ""
        · subst hsc
          rw [if_pos rfl] at hft
          rw [hft]
          rfl
        · rw [if_neg (by simp [hsc])] at hft
          rw [hft]
  rw [hstep]

/-- Claim C10 witness at a concrete input: a name map binding one key
to the empty string and one to a real tracker key. -/
theorem claim_c10_witness :
    count_orders_by_day [⟨"🍕", ⟨20500, 0⟩, ""⟩] [("", ""), ("a", "x")] ⟨20499, 0⟩ =
      count_orders_by_day [⟨"🍕", ⟨20500, 0⟩, ""⟩]
        ([("", ""), ("a", "x")].filter (fun p => !(p.2 == ""))) ⟨20499, 0⟩ :=
  claim_c10_empty_target_as_unmatched _ _ _ (by decide)

/-! ## difflib.SequenceMatcher model

`difflib.get_close_matches(csv_n, scorecard_norms, n=1, cutoff=0.6)` is
modelled faithfully: `b2j` with the autojunk purge, the
`find_longest_match` dynamic program with its two non-junk extension
loops (the junk set is empty since `isjunk=None`), the recursive
matching-blocks total, and the ratio `2*M/T` as an exact rational.
The float comparisons of CPython are modelled as exact rational
comparisons; they agree at every realistically sized input.
`real_quick_ratio`/`quick_ratio` are upper bounds on `ratio` and hence
do not change which possibilities pass the cutoff. -/

/-- Association lookup with natural-number keys and default `0`
(Python `j2len.get(j - 1, 0)`). -/
def lookupN : List (ℕ × ℕ) → ℕ → ℕ
  | [], _ => 0
  | (k, v) :: rest, x => if k = x then v else lookupN rest x

/-- Indices at which character `c` occurs in `b`, ascending. -/
def posList (b : List Char) (c : Char) : List ℕ :=
  (b.enum.filter (fun p => p.2 = c)).map Prod.fst

/-- `b2j.get(c, [])` after the autojunk purge: for `len(b) >= 200`,
characters occurring more than `len(b) // 100 + 1` times are removed
from the index. -/
def b2jGet (b : List Char) (c : Char) : List ℕ :=
  let idxs := posList b c
  if 200 ≤ b.length ∧ b.length / 100 + 1 < idxs.length then [] else idxs

/-- The inner `for j in b2j.get(a[i], [])` loop of
`find_longest_match`: builds `newj2len` and updates the best block.
The state is `(newj2len, (besti, bestj, bestsize))`. -/
def flmJ (j2len : List (ℕ × ℕ)) (i blo bhi : ℕ) (js : List ℕ)
    (best : ℕ × ℕ × ℕ) : List (ℕ × ℕ) × (ℕ × ℕ × ℕ) :=
  js.foldl (fun st j =>
    if blo ≤ j ∧ j < bhi then
      let k := (if j = 0 then 0 else lookupN j2len (j - 1)) + 1
      let newm := (j, k) :: st.1
      if st.2.2.2 < k then (newm, (i + 1 - k, j + 1 - k, k)) else (newm, st.2)
    else st) ([], best)

/-- The outer `for i in range(alo, ahi)` loop of `find_longest_match`. -/
def flmOuter (a b : List Char) (alo ahi blo bhi : ℕ) : ℕ × ℕ × ℕ :=
  ((List.range' alo (ahi - alo)).foldl (fun st i =>
      flmJ st.1 i blo bhi (b2jGet b (a.getD i (Char.ofNat 0))) st.2)
    ([], (alo, blo, 0))).2

/-- First extension loop of `find_longest_match` (leftward; the junk
set is empty, so the `not isbjunk` guard always holds).  The fuel is
`besti`, which strictly decreases on each step. -/
def extendLeft (a b : List Char) (alo blo : ℕ) :
    ℕ → ℕ → ℕ → ℕ → ℕ × ℕ × ℕ
  | 0, besti, bestj, bestsize => (besti, bestj, bestsize)
  | fuel + 1, besti, bestj, bestsize =>
    if alo < besti ∧ blo < bestj ∧
        a.getD (besti - 1) (Char.ofNat 0) = b.getD (bestj - 1) (Char.ofNat 0) then
      extendLeft a b alo blo fuel (besti - 1) (bestj - 1) (bestsize + 1)
    else (besti, bestj, bestsize)

/-- Second extension loop of `find_longest_match` (rightward). -/
def extendRight (a b : List Char) (ahi bhi besti bestj : ℕ) :
    ℕ → ℕ → ℕ
  | 0, bestsize => bestsize
  | fuel + 1, bestsize =>
    if besti + bestsize < ahi ∧ bestj + bestsize < bhi ∧
        a.getD (besti + bestsize) (Char.ofNat 0) = b.getD (bestj + bestsize) (Char.ofNat 0) then
      extendRight a b ahi bhi besti bestj fuel (bestsize + 1)
    else bestsize

/-- `SequenceMatcher.find_longest_match` on the region
`a[alo:ahi] × b[blo:bhi]`, with `isjunk=None` (empty junk set). -/
def findLongestMatch (a b : List Char) (alo ahi blo bhi : ℕ) : ℕ × ℕ × ℕ :=
  match flmOuter a b alo ahi blo bhi with
  | (bi, bj, bs) =>
    match extendLeft a b alo blo bi bi bj bs with
    | (bi', bj', bs') => (bi', bj', extendRight a b ahi bhi bi' bj' ahi bs')

/-- Total size of all matching blocks (the recursion of
`get_matching_blocks`, of which `ratio` only uses the sum).  The fuel
bounds the recursion depth; `(ahi - alo) + (bhi - blo)` shrinks at
every recursive call, so the top-level fuel below is sufficient. -/
def matchSumF (a b : List Char) : ℕ → ℕ → ℕ → ℕ → ℕ → ℕ
  | 0, _, _, _, _ => 0
  | fuel + 1, alo, ahi, blo, bhi =>
    match findLongestMatch a b alo ahi blo bhi with
    | (i, j, k) =>
      if k = 0 then 0
      else
        (if alo < i ∧ blo < j then matchSumF a b fuel alo i blo j else 0) + k +
        (if i + k < ahi ∧ j + k < bhi then matchSumF a b fuel (i + k) ahi (j + k) bhi else 0)

/-- Sum of the sizes of all matching blocks of
`SequenceMatcher(None, a, b)`. -/
def matchTotal (a b : List Char) : ℕ :=
  matchSumF a b (a.length + b.length + 1) 0 a.length 0 b.length

/-- `SequenceMatcher(None, a, b).ratio()` as an exact fraction
`(numerator, denominator)`: `(2*M, T)`, and `(1, 1)` when both
sequences are empty.  The denominator is always positive, and all
ratio comparisons below are done cross-multiplied so that they are
kernel-computable. -/
def simPair (a b : List Char) : ℕ × ℕ :=
  if a.length + b.length = 0 then (1, 1)
  else (2 * matchTotal a b, a.length + b.length)

/-- The ratio as an exact rational, for statements. -/
def similarity (a b : List Char) : ℚ :=
  ((simPair a b).1 : ℚ) / ((simPair a b).2 : ℚ)

/-- The cutoff test `ratio >= 0.6` of `get_close_matches`,
cross-multiplied: `2*M/T ≥ 3/5  ↔  3*T ≤ 5*(2*M)`. -/
def simCut (a b : List Char) : Prop :=
  3 * (simPair a b).2 ≤ 5 * (simPair a b).1

instance (a b : List Char) : Decidable (simCut a b) := by
  unfold simCut; infer_instance

/-- Strict lexicographic order on the `(ratio, string)` pairs that
`get_close_matches` hands to `nlargest`; the ratio comparison is
cross-multiplied. -/
def simKeyLt (w x y : String) : Prop :=
  (simPair x.data w.data).1 * (simPair y.data w.data).2 <
      (simPair y.data w.data).1 * (simPair x.data w.data).2 ∨
    ((simPair x.data w.data).1 * (simPair y.data w.data).2 =
        (simPair y.data w.data).1 * (simPair x.data w.data).2 ∧ x < y)

instance (w x y : String) : Decidable (simKeyLt w x y) := by
  unfold simKeyLt; infer_instance

theorem simPair_den_pos (a b : List Char) : 0 < (simPair a b).2 := by
  unfold simPair
  split
  · exact Nat.one_pos
  · rename_i h
    simp only
    omega

theorem ratioLt_iff_q {p q : ℕ × ℕ} (hp : 0 < p.2) (hq : 0 < q.2) :
    p.1 * q.2 < q.1 * p.2 ↔ (p.1 : ℚ) / p.2 < (q.1 : ℚ) / q.2 := by
  rw [div_lt_div_iff₀ (by exact_mod_cast hp) (by exact_mod_cast hq)]
  exact_mod_cast Iff.rfl

theorem ratioEq_iff_q {p q : ℕ × ℕ} (hp : 0 < p.2) (hq : 0 < q.2) :
    p.1 * q.2 = q.1 * p.2 ↔ (p.1 : ℚ) / p.2 = (q.1 : ℚ) / q.2 := by
  rw [div_eq_div_iff (Nat.cast_ne_zero.mpr hp.ne') (Nat.cast_ne_zero.mpr hq.ne')]
  exact_mod_cast Iff.rfl

/-- The cross-multiplied key order is the lexicographic order on
`(exact ratio, string)`. -/
theorem simKeyLt_iff (w x y : String) : simKeyLt w x y ↔
    (similarity x.data w.data < similarity y.data w.data ∨
      (similarity x.data w.data = similarity y.data w.data ∧ x < y)) := by
  unfold simKeyLt similarity
  rw [ratioLt_iff_q (simPair_den_pos _ _) (simPair_den_pos _ _),
    ratioEq_iff_q (simPair_den_pos _ _) (simPair_den_pos _ _)]

/-- The cross-multiplied cutoff test is exactly `ratio ≥ 3/5`. -/
theorem simCut_iff (a b : List Char) :
    simCut a b ↔ (3 : ℚ)/5 ≤ similarity a b := by
  unfold simCut similarity
  rw [div_le_div_iff₀ (by norm_num) (by exact_mod_cast simPair_den_pos a b)]
  rw [mul_comm ((simPair a b).1 : ℚ) 5]
  exact_mod_cast Iff.rfl

/-- One comparison step of Python `max` by the `(ratio, string)` key. -/
def pickStep (w : String) (acc : Option String) (x : String) : Option String :=
  match acc with
  | none => some x
  | some m => if simKeyLt w m x then some x else acc

/-- Python `max` by the `(ratio, string)` key: keeps the current best
and replaces it only on a strictly greater key. -/
def pickBest (w : String) (l : List String) : Option String :=
  l.foldl (pickStep w) none

/-- `difflib.get_close_matches(w, poss, n=1, cutoff=0.6)` as an
`Option`: the `(ratio, string)`-largest of the possibilities whose
ratio is at least `3/5`, if any. -/
def get_close_matches_one (w : String) (poss : List String) : Option String :=
  pickBest w (poss.filter (fun x => decide (simCut x.data w.data)))

/-! ## Substring containment -/

/-- Python `small in big` on strings: contiguous substring test. -/
def substrB (small : List Char) : List Char → Bool
  | [] => small.isEmpty
  | c :: rest => small.isPrefixOf (c :: rest) || substrB small rest

/-- `sc_n in csv_n` at the `String` level. -/
def strIn (small big : String) : Bool := substrB small.data big.data

/-! ## The two name reconcilers -/

namespace App

/-- `build_name_map` from `app.py` line 159: exact match, then first
substring containment in the tracker key iteration order, then the
`difflib.get_close_matches` fallback with cutoff 0.6. -/
def build_name_map (order_norms scorecard_norms : List String) :
    List (String × String) :=
  order_norms.foldl (fun mapping csv_n =>
    if scorecard_norms.contains csv_n then updateA mapping csv_n csv_n
    else
      match scorecard_norms.find? (fun sc_n => strIn sc_n csv_n || strIn csv_n sc_n) with
      | some sc_n => updateA mapping csv_n sc_n
      | none =>
        match get_close_matches_one csv_n scorecard_norms with
        | some m => updateA mapping csv_n m
        | none => mapping) []

end App

namespace Gen

/-- `MANUAL_NAME_MAP` from `generate_scorecards.py` line 25. -/
def MANUAL_NAME_MAP : List (String × String) :=
  [("shawerma 3a saj", "shawerma saj"),
   ("everybuddy nutrition supplements", "everybuddy"),
   ("pachi pizza and pasta", "pachi pizza"),
   ("azul pastry", "azul"),
   ("ikura japanese cuisine", "ikura"),
   ("the fit bar", "the fit bar jo"),
   ("sofia turkish restaurant", "sofia"),
   ("secrets cakes", "secrets cake"),
   ("flour and fire", "flour and fire")]

/-- `build_name_map` from `generate_scorecards.py` line 137: exact
match, then the manual overrides (only when the override target is a
tracker key), then first substring containment.  This variant has no
approximate-similarity fallback. -/
def build_name_map (order_norms scorecard_norms : List String) :
    List (String × String) :=
  order_norms.foldl (fun mapping csv_n =>
    if scorecard_norms.contains csv_n then updateA mapping csv_n csv_n
    else
      match lookupA MANUAL_NAME_MAP csv_n with
      | some t =>
        if scorecard_norms.contains t then updateA mapping csv_n t
        else
          match scorecard_norms.find? (fun sc_n => strIn sc_n csv_n || strIn csv_n sc_n) with
          | some sc_n => updateA mapping csv_n sc_n
          | none => mapping
      | none =>
        match scorecard_norms.find? (fun sc_n => strIn sc_n csv_n || strIn csv_n sc_n) with
        | some sc_n => updateA mapping csv_n sc_n
        | none => mapping) []

end Gen

/-! ## Order lemmas for the `(ratio, string)` key -/

theorem simKeyLt_irrefl (w x : String) : ¬ simKeyLt w x x := by
  unfold simKeyLt
  push_neg
  exact ⟨le_refl _, fun _ => le_refl _⟩

theorem simKeyLt_trans {w x y z : String}
    (h1 : simKeyLt w x y) (h2 : simKeyLt w y z) : simKeyLt w x z := by
  rw [simKeyLt_iff] at h1 h2 ⊢
  rcases h1 with h1 | ⟨h1e, h1s⟩
  · rcases h2 with h2 | ⟨h2e, _⟩
    · exact Or.inl (lt_trans h1 h2)
    · exact Or.inl (h2e ▸ h1)
  · rcases h2 with h2 | ⟨h2e, h2s⟩
    · exact Or.inl (h1e ▸ h2)
    · exact Or.inr ⟨h1e.trans h2e, lt_trans h1s h2s⟩

theorem simKeyLt_of_lt_of_nlt {w a b c : String}
    (h1 : simKeyLt w a b) (h2 : ¬ simKeyLt w c b) : simKeyLt w a c := by
  rw [simKeyLt_iff] at h1 h2 ⊢
  push_neg at h2
  obtain ⟨h2a, h2b⟩ := h2
  rcases h1 with h1 | ⟨h1e, h1s⟩
  · exact Or.inl (lt_of_lt_of_le h1 h2a)
  · rcases lt_or_eq_of_le h2a with h | h
    · exact Or.inl (h1e ▸ h)
    · exact Or.inr ⟨h1e.trans h, lt_of_lt_of_le h1s (h2b h.symm)⟩

theorem eq_of_nlt_nlt {w x y : String}
    (h1 : ¬ simKeyLt w x y) (h2 : ¬ simKeyLt w y x) : x = y := by
  rw [simKeyLt_iff] at h1 h2
  push_neg at h1 h2
  have he : similarity x.data w.data = similarity y.data w.data :=
    le_antisymm h2.1 h1.1
  exact le_antisymm (h2.2 he.symm) (h1.2 he)

theorem sim_le_of_nlt {w x y : String} (h : ¬ simKeyLt w x y) :
    similarity y.data w.data ≤ similarity x.data w.data := by
  rw [simKeyLt_iff] at h
  push_neg at h
  exact h.1

/-! ## `pickBest` is the key-maximum -/

theorem pickBest_go (w : String) : ∀ (l : List String) (m : String),
    ∃ r, l.foldl (pickStep w) (some m) = some r ∧ (r = m ∨ r ∈ l) ∧
      ¬ simKeyLt w r m ∧ ∀ y ∈ l, ¬ simKeyLt w r y := by
  intro l
  induction l with
  | nil =>
    intro m
    exact ⟨m, rfl, Or.inl rfl, simKeyLt_irrefl w m, by simp⟩
  | cons x l ih =>
    intro m
    rw [List.foldl_cons]
    by_cases h : simKeyLt w m x
    · have hx : pickStep w (some m) x = some x := by
        show (if simKeyLt w m x then some x else some m) = some x
        rw [if_pos h]
      rw [hx]
      obtain ⟨r, hr, hmem, hrm, hall⟩ := ih x
      refine ⟨r, hr, ?_, ?_, ?_⟩
      · rcases hmem with rfl | hm
        · exact Or.inr (List.mem_cons_self _ _)
        · exact Or.inr (List.mem_cons_of_mem _ hm)
      · intro hcon
        exact hrm (simKeyLt_trans hcon h)
      · intro y hy
        rcases List.mem_cons.mp hy with rfl | hyl
        · exact hrm
        · exact hall y hyl
    · have hx : pickStep w (some m) x = some m := by
        show (if simKeyLt w m x then some x else some m) = some m
        rw [if_neg h]
      rw [hx]
      obtain ⟨r, hr, hmem, hrm, hall⟩ := ih m
      refine ⟨r, hr, ?_, hrm, ?_⟩
      · rcases hmem with rfl | hm
        · exact Or.inl rfl
        · exact Or.inr (List.mem_cons_of_mem _ hm)
      · intro y hy
        rcases List.mem_cons.mp hy with rfl | hyl
        · intro hcon
          exact hrm (simKeyLt_of_lt_of_nlt hcon h)
        · exact hall y hyl

theorem pickBest_spec (w : String) (l : List String) (hl : l ≠ []) :
    ∃ r, pickBest w l = some r ∧ r ∈ l ∧ ∀ y ∈ l, ¬ simKeyLt w r y := by
  obtain ⟨x, l', rfl⟩ := List.exists_cons_of_ne_nil hl
  have h0 : pickBest w (x :: l') = l'.foldl (pickStep w) (some x) := rfl
  obtain ⟨r, hr, hmem, hrm, hall⟩ := pickBest_go w l' x
  refine ⟨r, h0.trans hr, ?_, ?_⟩
  · rcases hmem with rfl | hm
    · exact List.mem_cons_self _ _
    · exact List.mem_cons_of_mem _ hm
  · intro y hy
    rcases List.mem_cons.mp hy with rfl | hyl
    · exact hrm
    · exact hall y hyl

/-- `get_close_matches(w, poss, 1, 0.6)` returns exactly the overall
`(ratio, string)`-best possibility when its ratio meets the cutoff,
and nothing otherwise: filtering by the cutoff and then maximizing is
the same as maximizing and then thresholding. -/
theorem getCloseMatchesOne_eq (w : String) (poss : List String) :
    get_close_matches_one w poss =
      match pickBest w poss with
      | none => none
      | some b => if simCut b.data w.data then some b else none := by
  rcases hp : poss with _ | ⟨x, l⟩
  · rfl
  rw [← hp]
  have hne : poss ≠ [] := by rw [hp]; simp
  obtain ⟨m, hm, hmem, hmax⟩ := pickBest_spec w poss hne
  rw [hm]
  show get_close_matches_one w poss =
    if simCut m.data w.data then some m else none
  by_cases hcut : simCut m.data w.data
  · rw [if_pos hcut]
    unfold get_close_matches_one
    have hmf : m ∈ poss.filter (fun x => decide (simCut x.data w.data)) := by
      rw [List.mem_filter]
      exact ⟨hmem, by simpa using hcut⟩
    have hfne : poss.filter (fun x => decide (simCut x.data w.data)) ≠ [] := by
      intro hc
      rw [hc] at hmf
      exact absurd hmf (List.not_mem_nil m)
    obtain ⟨r, hr, hrmem, hrmax⟩ := pickBest_spec w _ hfne
    have hrl : r ∈ poss := (List.mem_filter.mp hrmem).1
    have h1 : ¬ simKeyLt w r m := hrmax m hmf
    have h2 : ¬ simKeyLt w m r := hmax r hrl
    rw [hr, eq_of_nlt_nlt h1 h2]
  · rw [if_neg hcut]
    unfold get_close_matches_one
    have hfe : poss.filter (fun x => decide (simCut x.data w.data)) = [] := by
      rw [List.filter_eq_nil_iff]
      intro y hy
      simp only [decide_eq_true_eq]
      intro hcon
      rw [simCut_iff] at hcon
      refine hcut ?_
      rw [simCut_iff]
      exact le_trans hcon (sim_le_of_nlt (hmax y hy))
    rw [hfe]
    rfl

/-! ## Claim C2: the reconciliation rules -/

/-- The per-key matching rules exactly as the claim words them: exact
equality, else first substring containment in either direction, else
the single `(ratio, string)`-best approximate match if and only if its
similarity ratio is at least 0.6, else no match. -/
def claimedRule (tns : List String) (cn : String) : Option String :=
  if tns.contains cn then some cn
  else
    match tns.find? (fun sn => strIn sn cn || strIn cn sn) with
    | some sn => some sn
    | none =>
      match pickBest cn tns with
      | some b => if simCut b.data cn.data then some b else none
      | none => none

/-- The per-key rules of the `generate_scorecards.py` variant: exact
equality, else the hardcoded manual override (when its target is a
tracker key), else first substring containment; no approximate
fallback. -/
def genRule (tns : List String) (cn : String) : Option String :=
  if tns.contains cn then some cn
  else
    match lookupA Gen.MANUAL_NAME_MAP cn with
    | some t =>
      if tns.contains t then some t
      else tns.find? (fun sn => strIn sn cn || strIn cn sn)
    | none => tns.find? (fun sn => strIn sn cn || strIn cn sn)

/-- Assemble a name map by applying a per-key rule to each order key,
skipping keys on which the rule fails. -/
def mapFromRule (rule : String → Option String) (ons : List String) :
    List (String × String) :=
  ons.foldl (fun m cn =>
    match rule cn with
    | some t => updateA m cn t
    | none => m) []

/-- The name map the claim describes, built from `claimedRule`. -/
def claimed_name_map (ons tns : List String) : List (String × String) :=
  mapFromRule (claimedRule tns) ons

/-- The name map described by the amended rules for the
`generate_scorecards.py` variant. -/
def gen_rules_map (ons tns : List String) : List (String × String) :=
  mapFromRule (genRule tns) ons

/-- Claim C2 counterexample: for the order key `"azul pastry"` and
tracker keys `["pastry", "azul"]`, the claimed rules (substring
containment at priority 2) map to `"pastry"`, but the
`generate_scorecards.py` `build_name_map` consults its manual override
table before substring containment and maps to `"azul"`. -/
theorem claim_c2_counterexample :
    Gen.build_name_map ["azul pastry"] ["pastry", "azul"] = [("azul pastry", "azul")] ∧
    claimed_name_map ["azul pastry"] ["pastry", "azul"] = [("azul pastry", "pastry")] := by
  constructor
  · decide
  · decide

/-- Claim C2 (amended): the `app.py` `build_name_map` applies exactly
the claimed rules in strict priority order — exact equality, first
substring containment in either direction, then the single best
approximate match if and only if its sequence-matching ratio is at
least 0.6, the key being absent when all fail.  The
`generate_scorecards.py` variant instead applies exact equality, then
the hardcoded manual-override table (when the override target is a
tracker key), then first substring containment, and has no
approximate-similarity fallback. -/
theorem claim_c2_amended (ons tns : List String) :
    App.build_name_map ons tns = claimed_name_map ons tns ∧
    Gen.build_name_map ons tns = gen_rules_map ons tns := by
  constructor
  · unfold App.build_name_map claimed_name_map mapFromRule
    apply List.foldl_ext
    intro m cn _
    unfold claimedRule
    by_cases h1 : tns.contains cn = true
    · rw [if_pos h1, if_pos h1]
    · rw [if_neg h1, if_neg h1]
      cases hf : tns.find? (fun sn => strIn sn cn || strIn cn sn) with
      | some sn => rfl
      | none =>
        rw [getCloseMatchesOne_eq]
        cases hp : pickBest cn tns with
        | none => rfl
        | some b => rfl
  · unfold Gen.build_name_map gen_rules_map mapFromRule
    apply List.foldl_ext
    intro m cn _
    unfold genRule
    by_cases h1 : tns.contains cn = true
    · rw [if_pos h1, if_pos h1]
    · rw [if_neg h1, if_neg h1]
      cases hl : lookupA Gen.MANUAL_NAME_MAP cn with
      | some t =>
        by_cases h2 : tns.contains t = true
        · simp only [h2, if_true]
        · simp only [h2, if_false, Bool.false_eq_true]
      | none =>
        cases hf : tns.find? (fun sn => strIn sn cn || strIn cn sn) with
        | some sn => rfl
        | none => rfl

/-! ## Tracker ingestion -/

/-- The tri-state domain of the compliance flags: `TRUE`, `FALSE`, or
`NA` (not applicable). -/
inductive Tri where
  | yes
  | no
  | na
deriving DecidableEq

/-- One tracker record, i.e. one value of the `restaurants` dict built
by `load_scorecard`. -/
structure TrackerRecord where
  display_name : String
  tip_tag : Tri
  ig : Tri
  fb : Tri
  google : Tri
  stories : List Tri
  score : ℕ
deriving DecidableEq

/-- Python `str.upper`, restricted to ASCII.  `val` compares the
result only against the ASCII literals `TRUE`/`FALSE`/`NA`, and the
exotic non-ASCII characters whose Python uppercase is ASCII are out of
scope of this embedding. -/
def pyUpper (c : Char) : Char :=
  if 97 ≤ c.toNat ∧ c.toNat ≤ 122 then Char.ofNat (c.toNat - 32) else c

def upperStr (s : String) : String := String.mk (s.data.map pyUpper)

def stripStr (s : String) : String := String.mk (pyStrip s.data)

def lowerStr (s : String) : String := String.mk (s.data.map pyLower)

/-- The CSV cell coercion `val` from `app.py` line 103: `TRUE`/`FALSE`
pass through, `NA` (case-insensitive, stripped) becomes the
not-applicable state, anything else becomes `FALSE`. -/
def val (col_val : String) : Tri :=
  let cv := upperStr (stripStr col_val)
  if cv = "TRUE" then Tri.yes
  else if cv = "FALSE" then Tri.no
  else if cv = "NA" then Tri.na
  else Tri.no

/-- `load_scorecard` from `app.py` line 82, CSV branch (lines 86-120):
data rows start at row index 4; rows shorter than 12 cells, rows with
an empty name, and the `"sum"` totals row are skipped; column 1 is
TipnTag, 2-4 are IG/FB/Google, 5-11 are the Sun-Sat stories.  The
score is `int((true_count / 10.0) * 100)` over columns 2-11; for
`0 ≤ true_count ≤ 10` the float arithmetic is exact and the value is
`10 * true_count`. -/
def csvStep (restaurants : List (String × TrackerRecord)) (row : List String) :
    List (String × TrackerRecord) :=
  if row.length < 12 then restaurants
  else if row.getD 0 "" = "" ∨ lowerStr (stripStr (row.getD 0 "")) = "sum" then restaurants
  else
    updateA restaurants (normalize (row.getD 0 ""))
      { display_name := stripStr (row.getD 0 "")
        tip_tag := val (row.getD 1 "")
        ig := val (row.getD 2 "")
        fb := val (row.getD 3 "")
        google := val (row.getD 4 "")
        stories := (List.range' 5 7).map (fun c => val (row.getD c ""))
        score := 10 * ((List.range' 2 10).filter
          (fun c => decide (val (row.getD c "") = Tri.yes))).length }

def load_scorecard_csv (reader : List (List String)) : List (String × TrackerRecord) :=
  (reader.drop 4).foldl csvStep []

/-- An openpyxl cell value as far as `load_scorecard` inspects it:
a boolean, a string, or anything else (`None`, numbers, ...). -/
inductive PyCell where
  | bool (b : Bool)
  | str (s : String)
  | blank
deriving DecidableEq

/-- The Excel cell coercion (`val_xl` in `app.py` line 133 / `val` in
`generate_scorecards.py` line 105). -/
def val_xl (v : PyCell) : Tri :=
  match v with
  | PyCell.bool true => Tri.yes
  | PyCell.bool false => Tri.no
  | PyCell.str s => if upperStr (stripStr s) = "NA" then Tri.na else Tri.no
  | PyCell.blank => Tri.no

/-- One worksheet row from row index 5 on: the name cell (column A;
`None` or a string — a non-string truthy name cell would raise in the
Python source and is out of scope) and the cells of columns B..L
(`cells.getD 0` is column 2, ..., `cells.getD 10` is column 12). -/
structure XlsxRow where
  name : Option String
  cells : List PyCell
deriving DecidableEq

def cellAt (r : XlsxRow) (c : ℕ) : PyCell := r.cells.getD (c - 2) PyCell.blank

/-- `load_scorecard` from `app.py` line 124 (Excel branch) and
`generate_scorecards.py` line 93: name in column A, TipnTag in B,
IG/FB/Google in C-E, stories in F-L; the score counts the cells of
columns C-L whose raw value `is True`, and both sources compute
`10 * true_count` (one as `int((true_count/10.0)*100)`, exact in
binary64 for counts up to 10, the other as `int(true_count * 10)`). -/
def xlsxStep (restaurants : List (String × TrackerRecord)) (r : XlsxRow) :
    List (String × TrackerRecord) :=
  match r.name with
  | none => restaurants
  | some name =>
    if name = "" ∨ lowerStr (stripStr name) = "sum" then restaurants
    else
      updateA restaurants (normalize name)
        { display_name := stripStr name
          tip_tag := val_xl (cellAt r 2)
          ig := val_xl (cellAt r 3)
          fb := val_xl (cellAt r 4)
          google := val_xl (cellAt r 5)
          stories := (List.range' 6 7).map (fun c => val_xl (cellAt r c))
          score := 10 * ((List.range' 3 10).filter
            (fun c => decide (cellAt r c = PyCell.bool true))).length }

def load_scorecard_xlsx (rows : List XlsxRow) : List (String × TrackerRecord) :=
  rows.foldl xlsxStep []

/-- Number of `TRUE` flags among the 3 link flags IG, FB, Google and
the 7 story flags of a record — the 10 columns the code actually
scores (TipnTag excluded). -/
def countTrue10 (r : TrackerRecord) : ℕ :=
  [r.ig, r.fb, r.google].count Tri.yes + r.stories.count Tri.yes

/-- Number of `TRUE` flags among all 4 permanent-link flags and the 7
story flags — the 11 flags the claim says are scored. -/
def countTrue11 (r : TrackerRecord) : ℕ :=
  [r.tip_tag, r.ig, r.fb, r.google].count Tri.yes + r.stories.count Tri.yes

/-! ## Claim C1: the compliance score -/

theorem csv_count_eq (row : List String) :
    ((List.range' 2 10).filter (fun c => decide (val (row.getD c "") = Tri.yes))).length
      = [val (row.getD 2 ""), val (row.getD 3 ""), val (row.getD 4 "")].count Tri.yes
        + ((List.range' 5 7).map (fun c => val (row.getD c ""))).count Tri.yes := by
  have h1 : List.range' 2 10 = [2, 3, 4] ++ List.range' 5 7 := rfl
  rw [h1, ← List.countP_eq_length_filter, List.countP_append]
  congr 1

theorem val_xl_yes (v : PyCell) :
    (decide (v = PyCell.bool true)) = (val_xl v == Tri.yes) := by
  rcases v with b | s | _
  · cases b <;> rfl
  · show _ = ((if upperStr (stripStr s) = "NA" then Tri.na else Tri.no) == Tri.yes)
    split <;> rfl
  · rfl

theorem xlsx_count_eq (r : XlsxRow) :
    ((List.range' 3 10).filter (fun c => decide (cellAt r c = PyCell.bool true))).length
      = [val_xl (cellAt r 3), val_xl (cellAt r 4), val_xl (cellAt r 5)].count Tri.yes
        + ((List.range' 6 7).map (fun c => val_xl (cellAt r c))).count Tri.yes := by
  have h1 : List.range' 3 10 = [3, 4, 5] ++ List.range' 6 7 := rfl
  have h2 : (fun c => decide (cellAt r c = PyCell.bool true)) =
      (fun c => val_xl (cellAt r c) == Tri.yes) := by
    funext c
    exact val_xl_yes (cellAt r c)
  rw [h1, ← List.countP_eq_length_filter, h2, List.countP_append]
  congr 1

theorem csv_fold_score (rows : List (List String)) :
    ∀ acc : List (String × TrackerRecord),
      (∀ p ∈ acc, p.2.score = 10 * countTrue10 p.2) →
      ∀ p ∈ rows.foldl csvStep acc, p.2.score = 10 * countTrue10 p.2 := by
  induction rows with
  | nil => intro acc h p hp; exact h p hp
  | cons row rows ih =>
    intro acc h p hp
    rw [List.foldl_cons] at hp
    refine ih (csvStep acc row) ?_ p hp
    intro q hq
    unfold csvStep at hq
    split at hq
    · exact h q hq
    · split at hq
      · exact h q hq
      · rcases mem_updateA_values hq with hm | hv
        · exact h q hm
        · rw [hv]
          show 10 * _ = 10 * countTrue10 _
          unfold countTrue10
          rw [csv_count_eq row]

theorem xlsx_fold_score (rows : List XlsxRow) :
    ∀ acc : List (String × TrackerRecord),
      (∀ p ∈ acc, p.2.score = 10 * countTrue10 p.2) →
      ∀ p ∈ rows.foldl xlsxStep acc, p.2.score = 10 * countTrue10 p.2 := by
  induction rows with
  | nil => intro acc h p hp; exact h p hp
  | cons r rows ih =>
    intro acc h p hp
    rw [List.foldl_cons] at hp
    refine ih (xlsxStep acc r) ?_ p hp
    intro q hq
    unfold xlsxStep at hq
    split at hq
    · exact h q hq
    · rename_i name
      split at hq
      · exact h q hq
      · rcases mem_updateA_values hq with hm | hv
        · exact h q hm
        · rw [hv]
          show 10 * _ = 10 * countTrue10 _
          unfold countTrue10
          rw [xlsx_count_eq r]

/-- Claim C1 (amended): for every record stored by `load_scorecard`
(either physical encoding), the derived compliance score equals
`round(100 × t / 10) = 10 t` where `t` counts the `TRUE` flags among
the 3 permanent-link flags IG, FB, Google and the 7 story flags — 10
scored columns.  The tip-and-tag link flag, which the frozen claim
includes among the scored flags, is *not* scored by the code. -/
theorem claim_c1_amended (reader : List (List String)) (rows : List XlsxRow)
    (k k' : String) (rec rec' : TrackerRecord)
    (h1 : lookupA (load_scorecard_csv reader) k = some rec)
    (h2 : lookupA (load_scorecard_xlsx rows) k' = some rec') :
    rec.score = 10 * countTrue10 rec ∧ rec'.score = 10 * countTrue10 rec' := by
  constructor
  · exact csv_fold_score (reader.drop 4) []
      (by intro p hp; exact absurd hp (List.not_mem_nil p))
      (k, rec) (lookupA_mem h1)
  · exact xlsx_fold_score rows []
      (by intro p hp; exact absurd hp (List.not_mem_nil p))
      (k', rec') (lookupA_mem h2)

/-- The record `load_scorecard` builds from a CSV row whose only
`TRUE` cell is the TipnTag column. -/
def c1Rec : TrackerRecord :=
  ⟨"Tip Shop", Tri.yes, Tri.no, Tri.no, Tri.no,
    [Tri.no, Tri.no, Tri.no, Tri.no, Tri.no, Tri.no, Tri.no], 0⟩

/-- Claim C1 counterexample: a tracker row with TipnTag `TRUE` and all
other flags `FALSE` is stored with score `0`, not
`round(100 × 1 / 10) = 10` as the claim (which counts the TipnTag flag
among the scored columns) demands. -/
theorem claim_c1_counterexample :
    lookupA (load_scorecard_csv [[], [], [], [],
      ["Tip Shop", "TRUE", "FALSE", "FALSE", "FALSE", "FALSE", "FALSE",
       "FALSE", "FALSE", "FALSE", "FALSE", "FALSE"]]) "tip shop" = some c1Rec ∧
    c1Rec.score ≠ 100 * countTrue11 c1Rec / 10 := by
  constructor
  · decide
  · decide

/-- The record `load_scorecard` builds from a worksheet row with
TipnTag and IG `TRUE`, FB blank, Google `NA`, all stories `FALSE`. -/
def c1RecX : TrackerRecord :=
  ⟨"B Shop", Tri.yes, Tri.yes, Tri.no, Tri.na,
    [Tri.no, Tri.no, Tri.no, Tri.no, Tri.no, Tri.no, Tri.no], 10⟩

/-- Claim C1 amended witness: concrete CSV and worksheet inputs whose
stored records satisfy the amended score formula. -/
theorem claim_c1_witness :
    c1Rec.score = 10 * countTrue10 c1Rec ∧ c1RecX.score = 10 * countTrue10 c1RecX :=
  claim_c1_amended
    [[], [], [], [],
      ["Tip Shop", "TRUE", "FALSE", "FALSE", "FALSE", "FALSE", "FALSE",
       "FALSE", "FALSE", "FALSE", "FALSE", "FALSE"]]
    [⟨some "B Shop",
      [PyCell.bool true, PyCell.bool true, PyCell.blank, PyCell.str "NA",
       PyCell.bool false, PyCell.bool false, PyCell.bool false, PyCell.bool false,
       PyCell.bool false, PyCell.bool false, PyCell.bool false]⟩]
    "tip shop" "b shop" c1Rec c1RecX (by decide) (by decide)

/-! ## Claim C3: the end-to-end "Pizza Pachi" scenario -/

/-- The two normalized order-side keys of the scenario, i.e.
`set(o["norm"] for o in orders)` for two `"Pizza Pachi"` orders and one
`"PACHI PIZZA AND PASTA"` order. -/
def c3OrderNorms : List String :=
  [normalize "Pizza Pachi", normalize "PACHI PIZZA AND PASTA"]

/-- The three orders of the scenario, all on Monday 2026-02-16 (day
number 20500, inside the week starting Sunday 2026-02-15 = day
20499). -/
def c3Orders : List Order :=
  [⟨"Pizza Pachi", ⟨20500, 36000000000⟩, normalize "Pizza Pachi"⟩,
   ⟨"Pizza Pachi", ⟨20500, 43200000000⟩, normalize "Pizza Pachi"⟩,
   ⟨"PACHI PIZZA AND PASTA", ⟨20500, 50000000000⟩, normalize "PACHI PIZZA AND PASTA"⟩]

/-- The scenario's tracker: a single record keyed `"pachi pizza"` with
the Monday story flag true and three other true flags (IG, FB, Google)
among the ten scored columns. -/
def c3Tracker : List (String × TrackerRecord) :=
  load_scorecard_xlsx
    [⟨some "Pachi Pizza",
      [PyCell.bool false, PyCell.bool true, PyCell.bool true, PyCell.bool true,
       PyCell.bool false, PyCell.bool true, PyCell.bool false, PyCell.bool false,
       PyCell.bool false, PyCell.bool false, PyCell.bool false]⟩]

/-- Claim C3 counterexample: in the scenario, neither reconciler maps
the order key `"pizza pachi"` (normalized `"Pizza Pachi"`) to
`"pachi pizza"`: it is not an exact match, not a substring in either
direction, and its sequence-matching ratio is `10/22 < 0.6`, so the
key is absent from both name maps — the claim says both order-side
keys map to `"pachi pizza"`. -/
theorem claim_c3_counterexample :
    lookupA (App.build_name_map c3OrderNorms ["pachi pizza"]) (normalize "Pizza Pachi") = none ∧
    lookupA (Gen.build_name_map c3OrderNorms ["pachi pizza"]) (normalize "Pizza Pachi") = none := by
  constructor
  · decide
  · decide

/-- Claim C3 (amended): in the scenario, both reconcilers map
`"pachi pizza and pasta"` to `"pachi pizza"` (by substring containment
in `app.py`, by the manual override in `generate_scorecards.py`) but
leave `"pizza pachi"` unmatched; `determine_week` selects Sunday
2026-02-15; `count_by_day` therefore yields `[0, 1, 0, 0, 0, 0, 0]`
for `"pachi pizza"` — only the single `"PACHI PIZZA AND PASTA"` order
is counted, not `[0, 3, 0, 0, 0, 0, 0]`; and the record's score is
40. -/
theorem claim_c3_amended :
    (determine_week c3Orders ⟨0, 0⟩).1 = ⟨20499, 0⟩ ∧
    lookupA (App.build_name_map c3OrderNorms ["pachi pizza"])
      (normalize "PACHI PIZZA AND PASTA") = some "pachi pizza" ∧
    lookupA (Gen.build_name_map c3OrderNorms ["pachi pizza"])
      (normalize "PACHI PIZZA AND PASTA") = some "pachi pizza" ∧
    countsGet (count_orders_by_day c3Orders
      (App.build_name_map c3OrderNorms ["pachi pizza"]) ⟨20499, 0⟩) "pachi pizza"
      = [0, 1, 0, 0, 0, 0, 0] ∧
    countsGet (count_orders_by_day c3Orders
      (Gen.build_name_map c3OrderNorms ["pachi pizza"]) ⟨20499, 0⟩) "pachi pizza"
      = [0, 1, 0, 0, 0, 0, 0] ∧
    (lookupA c3Tracker "pachi pizza").map TrackerRecord.score = some 40 := by
  refine ⟨by decide, by decide, by decide, by decide, by decide, by decide⟩

/-! ## Claim C7: report ordering -/

/-- `sum(daily_counts.get(k, [0]))` from `app.py` line 454. -/
def sumD (counts : List (String × List ℕ)) (k : String) : ℕ :=
  ((lookupA counts k).getD [0]).sum

/-- The first sort-key component of `app.py` line 451:
`0 if x[0] in active_restaurants_in_csv and sum(...) > 0 else 1`. -/
def bitApp (counts : List (String × List ℕ)) (active : List String) (k : String) : ℕ :=
  if k ∈ active ∧ 0 < sumD counts k then 0 else 1

/-- The first sort-key component of `generate_scorecards.py` line 410:
`0 if x[0] in daily_counts else 1`. -/
def bitGen (counts : List (String × List ℕ)) (k : String) : ℕ :=
  if (lookupA counts k).isSome then 0 else 1

/-- Comparison of two Python sort-key tuples `(bit, display_name)`. -/
def pairLe (b1 : ℕ) (n1 : String) (b2 : ℕ) (n2 : String) : Bool :=
  decide (b1 < b2 ∨ (b1 = b2 ∧ n1 ≤ n2))

/-- Insert after all existing elements that compare `≤`, as a stable
sort does. -/
def stableInsert {α : Type} (le : α → α → Bool) (a : α) : List α → List α
  | [] => [a]
  | b :: l => if le b a then b :: stableInsert le a l else a :: b :: l

/-- A stable insertion sort, modelling Python's stable `sorted`. -/
def stableSort {α : Type} (le : α → α → Bool) : List α → List α
  | [] => []
  | a :: l => stableInsert le a (stableSort le l)

/-- `sorted_restaurants` from `app.py` line 451: sort the scorecard
items by `(0 if key is an active name-map target with a nonzero count
sum else 1, display_name)`. -/
def sorted_restaurants_app (scorecard : List (String × TrackerRecord))
    (daily_counts : List (String × List ℕ)) (name_map : List (String × String)) :
    List (String × TrackerRecord) :=
  stableSort (fun x y =>
    pairLe (bitApp daily_counts (name_map.map Prod.snd) x.1) x.2.display_name
      (bitApp daily_counts (name_map.map Prod.snd) y.1) y.2.display_name) scorecard

/-- `sorted_restaurants` from `generate_scorecards.py` line 408: sort
by `(0 if key in daily_counts else 1, display_name)`. -/
def sorted_restaurants_gen (scorecard : List (String × TrackerRecord))
    (daily_counts : List (String × List ℕ)) : List (String × TrackerRecord) :=
  stableSort (fun x y =>
    pairLe (bitGen daily_counts x.1) x.2.display_name
      (bitGen daily_counts y.1) y.2.display_name) scorecard

/-- The claim's "active" condition on a tracker key: it is a matched
target of the name map and its zero-filled day-count sequence has a
non-zero sum. -/
def activeCond (nm : List (String × String)) (counts : List (String × List ℕ))
    (k : String) : Prop :=
  k ∈ nm.map Prod.snd ∧ sumD counts k ≠ 0

/-- The ordering property the claim states, as a pairwise relation:
no inactive record precedes an active one, and records of equal
activity are in ascending display-name order. -/
def c7Rel (nm : List (String × String)) (counts : List (String × List ℕ))
    (x y : String × TrackerRecord) : Prop :=
  (activeCond nm counts y.1 → activeCond nm counts x.1) ∧
  ((activeCond nm counts x.1 ↔ activeCond nm counts y.1) →
    x.2.display_name ≤ y.2.display_name)

theorem pairLe_trans {b1 b2 b3 : ℕ} {n1 n2 n3 : String}
    (h1 : pairLe b1 n1 b2 n2 = true) (h2 : pairLe b2 n2 b3 n3 = true) :
    pairLe b1 n1 b3 n3 = true := by
  simp only [pairLe, decide_eq_true_eq] at h1 h2 ⊢
  rcases h1 with h1 | ⟨e1, l1⟩ <;> rcases h2 with h2 | ⟨e2, l2⟩
  · exact Or.inl (lt_trans h1 h2)
  · exact Or.inl (e2 ▸ h1)
  · exact Or.inl (e1 ▸ h2)
  · exact Or.inr ⟨e1.trans e2, le_trans l1 l2⟩

theorem pairLe_total (b1 : ℕ) (n1 : String) (b2 : ℕ) (n2 : String) :
    pairLe b1 n1 b2 n2 = true ∨ pairLe b2 n2 b1 n1 = true := by
  simp only [pairLe, decide_eq_true_eq]
  rcases lt_trichotomy b1 b2 with h | h | h
  · exact Or.inl (Or.inl h)
  · rcases le_total n1 n2 with hn | hn
    · exact Or.inl (Or.inr ⟨h, hn⟩)
    · exact Or.inr (Or.inr ⟨h.symm, hn⟩)
  · exact Or.inr (Or.inl h)

theorem mem_stableInsert {α : Type} (le : α → α → Bool) (a : α) (l : List α) (c : α) :
    c ∈ stableInsert le a l ↔ c = a ∨ c ∈ l := by
  induction l with
  | nil => simp [stableInsert]
  | cons b l ih =>
    unfold stableInsert
    split
    · rw [List.mem_cons, ih, List.mem_cons]
      tauto
    · simp only [List.mem_cons]

theorem pairwise_stableInsert {α : Type} (le : α → α → Bool)
    (htot : ∀ x y, le x y = true ∨ le y x = true)
    (htrans : ∀ x y z, le x y = true → le y z = true → le x z = true)
    (a : α) (l : List α) (h : List.Pairwise (fun x y => le x y = true) l) :
    List.Pairwise (fun x y => le x y = true) (stableInsert le a l) := by
  induction l with
  | nil => simp [stableInsert]
  | cons b l ih =>
    rw [List.pairwise_cons] at h
    obtain ⟨hb, hl⟩ := h
    unfold stableInsert
    by_cases hba : le b a = true
    · rw [if_pos hba, List.pairwise_cons]
      constructor
      · intro c hc
        rw [mem_stableInsert] at hc
        rcases hc with rfl | hc
        · exact hba
        · exact hb c hc
      · exact ih hl
    · rw [if_neg hba, List.pairwise_cons]
      have hab : le a b = true := by
        rcases htot a b with h | h
        · exact h
        · exact absurd h hba
      constructor
      · intro c hc
        rcases List.mem_cons.mp hc with rfl | hc
        · exact hab
        · exact htrans a b c hab (hb c hc)
      · exact List.pairwise_cons.mpr ⟨hb, hl⟩

theorem stableSort_pairwise {α : Type} (le : α → α → Bool)
    (htot : ∀ x y, le x y = true ∨ le y x = true)
    (htrans : ∀ x y z, le x y = true → le y z = true → le x z = true) :
    ∀ l : List α, List.Pairwise (fun x y => le x y = true) (stableSort le l)
  | [] => List.Pairwise.nil
  | a :: l =>
    pairwise_stableInsert le htot htrans a _ (stableSort_pairwise le htot htrans l)

theorem bitApp_le_one (counts : List (String × List ℕ)) (active : List String)
    (k : String) : bitApp counts active k ≤ 1 := by
  unfold bitApp
  split <;> omega

theorem bitGen_le_one (counts : List (String × List ℕ)) (k : String) :
    bitGen counts k ≤ 1 := by
  unfold bitGen
  split <;> omega

theorem bitApp_eq_zero (counts : List (String × List ℕ))
    (nm : List (String × String)) (k : String) :
    bitApp counts (nm.map Prod.snd) k = 0 ↔ activeCond nm counts k := by
  unfold bitApp activeCond
  split
  · rename_i h
    constructor
    · intro _
      exact ⟨h.1, by omega⟩
    · intro _
      rfl
  · rename_i h
    constructor
    · intro hc
      exact absurd hc (by omega)
    · intro hc
      exact absurd ⟨hc.1, by omega⟩ h

theorem c7_of_pairLe {nm : List (String × String)} {counts : List (String × List ℕ)}
    {f : String → ℕ}
    (hf : ∀ k, f k = 0 ↔ activeCond nm counts k) (hb : ∀ k, f k ≤ 1)
    {x y : String × TrackerRecord}
    (h : pairLe (f x.1) x.2.display_name (f y.1) y.2.display_name = true) :
    c7Rel nm counts x y := by
  simp only [pairLe, decide_eq_true_eq] at h
  constructor
  · intro hy
    rw [← hf] at hy ⊢
    rcases h with h | ⟨he, _⟩ <;> omega
  · intro hiff
    rcases h with h | ⟨_, hle⟩
    · have hx := hf x.1
      have hy := hf y.1
      have h1 := hb x.1
      have h2 := hb y.1
      have hxy : f x.1 = 0 ↔ f y.1 = 0 := by
        rw [hx, hy]; exact hiff
      omega
    · exact hle

theorem mem_updateA {β : Type} {m : List (String × β)} {k : String} {v : β}
    {p : String × β} (hp : p ∈ updateA m k v) : p ∈ m ∨ p = (k, v) := by
  induction m with
  | nil =>
    unfold updateA at hp
    rw [List.mem_singleton] at hp
    exact Or.inr hp
  | cons q rest ih =>
    obtain ⟨k2, v2⟩ := q
    unfold updateA at hp
    split at hp
    · rename_i hk2
      rcases List.mem_cons.mp hp with rfl | hp
      · exact Or.inr (by rw [hk2])
      · exact Or.inl (List.mem_cons_of_mem _ hp)
    · rcases List.mem_cons.mp hp with rfl | hp
      · exact Or.inl (List.mem_cons_self _ _)
      · rcases ih hp with h | h
        · exact Or.inl (List.mem_cons_of_mem _ h)
        · exact Or.inr h

theorem sum_bumpDay : ∀ (v : List ℕ) (d : ℕ), d < v.length →
    (bumpDay v d).sum = v.sum + 1 := by
  intro v
  induction v with
  | nil => intro d hd; simp at hd
  | cons a v ih =>
    intro d hd
    cases d with
    | zero =>
      show ((a :: v).set 0 ((a :: v).getD 0 0 + 1)).sum = (a :: v).sum + 1
      simp only [List.set_cons_zero, List.sum_cons, List.getD_cons_zero]
      omega
    | succ d =>
      show ((a :: v).set (d + 1) ((a :: v).getD (d + 1) 0 + 1)).sum = (a :: v).sum + 1
      simp only [List.set_cons_succ, List.sum_cons, List.getD_cons_succ]
      have hd2 : d < v.length := by simpa using hd
      have := ih d hd2
      unfold bumpDay at this
      omega

theorem counts_entries (orders : List Order) (nm : List (String × String))
    (ws : PyDateTime) :
    ∀ acc : List (String × List ℕ),
      (∀ p ∈ acc, 0 < p.2.sum ∧ p.2.length = 7 ∧ p.1 ∈ nm.map Prod.snd) →
      ∀ p ∈ orders.foldl (stepCount ws nm) acc,
        0 < p.2.sum ∧ p.2.length = 7 ∧ p.1 ∈ nm.map Prod.snd := by
  induction orders with
  | nil => intro acc h p hp; exact h p hp
  | cons o os ih =>
    intro acc h p hp
    rw [List.foldl_cons] at hp
    refine ih (stepCount ws nm acc o) ?_ p hp
    intro q hq
    unfold stepCount at hq
    split at hq
    · exact h q hq
    · split at hq
      · exact h q hq
      · rename_i sc hlk
        split at hq
        · exact h q hq
        · rcases mem_updateA hq with hm | rfl
          · exact h q hm
          · have hlen : ((lookupA acc sc).getD zeros7).length = 7 :=
              countsGet_length (fun z hz => (h z hz).2.1)
            have hdow : dowNat o.date < ((lookupA acc sc).getD zeros7).length := by
              rw [hlen]; exact dowNat_lt o.date
            refine ⟨?_, ?_, ?_⟩
            · show 0 < (bumpDay ((lookupA acc sc).getD zeros7) (dowNat o.date)).sum
              rw [sum_bumpDay _ _ hdow]
              omega
            · show (bumpDay ((lookupA acc sc).getD zeros7) (dowNat o.date)).length = 7
              rw [length_bumpDay]
              exact hlen
            · show sc ∈ nm.map Prod.snd
              have := lookupA_mem hlk
              exact List.mem_map_of_mem Prod.snd this

theorem bitGen_eq_zero (orders : List Order) (nm : List (String × String))
    (ws : PyDateTime) (k : String) :
    bitGen (count_orders_by_day orders nm ws) k = 0 ↔
      activeCond nm (count_orders_by_day orders nm ws) k := by
  unfold bitGen
  rcases ho : lookupA (count_orders_by_day orders nm ws) k with _ | v
  · constructor
    · intro hc
      simp at hc
    · intro hc
      exfalso
      obtain ⟨_, hsum⟩ := hc
      unfold sumD at hsum
      rw [ho] at hsum
      simp at hsum
  · have hp := counts_entries orders nm ws []
      (by intro z hz; exact absurd hz (List.not_mem_nil z))
      (k, v) (lookupA_mem ho)
    constructor
    · intro _
      refine ⟨hp.2.2, ?_⟩
      unfold sumD
      rw [ho]
      simp only [Option.getD_some]
      have h1 : 0 < v.sum := hp.1
      omega
    · intro _
      simp

/-- Claim C7: in the assembled report sequence of either front end,
every tracker record whose key is a matched target of the name map and
whose zero-filled day-count sequence has a non-zero sum comes before
every record failing that condition, and records of equal status are
in ascending case-sensitive display-name order.  The counts must be
the ones produced by the day aggregator for the same name map (the
`generate_scorecards.py` variant keys its sort on dictionary
membership, which coincides with the claim's condition exactly for
aggregator-produced counts). -/
theorem claim_c7_report_order (scorecard : List (String × TrackerRecord))
    (counts : List (String × List ℕ)) (nm : List (String × String))
    (orders : List Order) (ws : PyDateTime)
    (hc : counts = count_orders_by_day orders nm ws) :
    List.Pairwise (c7Rel nm counts) (sorted_restaurants_app scorecard counts nm) ∧
    List.Pairwise (c7Rel nm counts) (sorted_restaurants_gen scorecard counts) := by
  constructor
  · have hp := stableSort_pairwise
      (fun x y : String × TrackerRecord =>
        pairLe (bitApp counts (nm.map Prod.snd) x.1) x.2.display_name
          (bitApp counts (nm.map Prod.snd) y.1) y.2.display_name)
      (fun x y => pairLe_total _ _ _ _)
      (fun x y z h1 h2 => pairLe_trans h1 h2)
      scorecard
    exact hp.imp (c7_of_pairLe (bitApp_eq_zero counts nm)
      (fun k => bitApp_le_one counts (nm.map Prod.snd) k))
  · have hp := stableSort_pairwise
      (fun x y : String × TrackerRecord =>
        pairLe (bitGen counts x.1) x.2.display_name
          (bitGen counts y.1) y.2.display_name)
      (fun x y => pairLe_total _ _ _ _)
      (fun x y z h1 h2 => pairLe_trans h1 h2)
      scorecard
    subst hc
    exact hp.imp (c7_of_pairLe (bitGen_eq_zero orders nm ws)
      (fun k => bitGen_le_one _ k))

/-- A tracker record used only to instantiate the C7 witness. -/
def c7Rec : TrackerRecord :=
  ⟨"Alpha", Tri.no, Tri.no, Tri.no, Tri.no,
    [Tri.no, Tri.no, Tri.no, Tri.no, Tri.no, Tri.no, Tri.no], 0⟩

/-- A second tracker record for the C7 witness. -/
def c7Rec2 : TrackerRecord :=
  ⟨"Beta", Tri.no, Tri.no, Tri.no, Tri.no,
    [Tri.no, Tri.no, Tri.no, Tri.no, Tri.no, Tri.no, Tri.no], 0⟩

/-- Claim C7 witness: a two-record scorecard, one matched order. -/
theorem claim_c7_witness :
    List.Pairwise
      (c7Rel [("a", "x")] (count_orders_by_day [⟨"A", ⟨20500, 0⟩, "a"⟩] [("a", "x")] ⟨20499, 0⟩))
      (sorted_restaurants_app [("x", c7Rec), ("y", c7Rec2)]
        (count_orders_by_day [⟨"A", ⟨20500, 0⟩, "a"⟩] [("a", "x")] ⟨20499, 0⟩) [("a", "x")]) ∧
    List.Pairwise
      (c7Rel [("a", "x")] (count_orders_by_day [⟨"A", ⟨20500, 0⟩, "a"⟩] [("a", "x")] ⟨20499, 0⟩))
      (sorted_restaurants_gen [("x", c7Rec), ("y", c7Rec2)]
        (count_orders_by_day [⟨"A", ⟨20500, 0⟩, "a"⟩] [("a", "x")] ⟨20499, 0⟩)) :=
  claim_c7_report_order [("x", c7Rec), ("y", c7Rec2)] _ [("a", "x")]
    [⟨"A", ⟨20500, 0⟩, "a"⟩] ⟨20499, 0⟩ rfl

end Scorecards
